import Mathlib

/-!
Shallow embedding of the external-memory group-by engine of this repository
(`src/groupby.py` and `src/iterators.py`), together with proofs about it.

Modelling conventions:
* Keys are `Int` (Python ints compared numerically).
* Values enter the engine already rendered by `str(...)`; the model takes the
  rendered `String` directly.
* A run file is the list of its two-line entries.  Line 1 of an entry holds
  the decimal rendering of the key; Python's `"{}".format(key)` /
  `int(line)` round-trip is exact, so the model stores the integer itself.
  Line 2 is kept verbatim as the raw values line.
* `heapq` is modelled as a priority queue implemented by a list kept sorted
  by the comparison key `(key, file_index)`; `heappush` inserts in order and
  `heappop` takes the head, which is observably what `heapq` does here (the
  file objects in the Python tuples are never compared because file indices
  are distinct).
* Loops whose termination is not structural carry an explicit fuel argument
  chosen large enough (proved sufficient below), so that every definition is
  executable by kernel reduction.
-/

/-- Python `str.split()` at the character level: split on runs of whitespace,
dropping empty tokens.  `acc` holds the characters of the current token in
reverse. -/
def splitWSAux : List Char → List Char → List (List Char)
  | [], acc => if acc = [] then [] else [acc.reverse]
  | c :: cs, acc =>
    if c.isWhitespace then
      if acc = [] then splitWSAux cs []
      else acc.reverse :: splitWSAux cs []
    else splitWSAux cs (c :: acc)

def splitWSChars (l : List Char) : List (List Char) := splitWSAux l []

/-- `line.split()` as used by `MergeFileIterator.__next__` on a values line. -/
def splitWS (s : String) : List String := (splitWSChars s.data).map String.mk

/-- `" ".join(...)` at the character level. -/
def joinSpaceChars : List (List Char) → List Char
  | [] => []
  | [l] => l
  | l :: l' :: ls => l ++ ' ' :: joinSpaceChars (l' :: ls)

/-- `" ".join([str(v) for v in values])` from `write_key_values_to_file`;
in the model the values are already rendered strings. -/
def joinSpace (vs : List String) : String := String.mk (joinSpaceChars (vs.map String.data))

/-- A rendered value survives the space-separated run format iff it is
non-empty and contains no whitespace character. -/
def goodTok (s : String) : Bool := !s.data.isEmpty && s.data.all (fun c => !c.isWhitespace)

/-- A run file, as the list of its two-line entries: the key written on the
first line (kept as the integer, see the module comment) and the raw values
line. -/
abbrev RunFile := List (Int × String)

/-- `GroupByStatement.write_key_values_to_file`: each `(key, values)` pair is
written as two lines, the decimal key and the space-joined values. -/
def write_key_values_to_file (kvl : List (Int × List String)) : RunFile :=
  kvl.map (fun kv => (kv.1, joinSpace kv.2))

/-- Reading the entries of a run file back: each values line is re-split on
whitespace, as `MergeFileIterator.__next__` does. -/
def parseFile (f : RunFile) : List (Int × List String) :=
  f.map (fun e => (e.1, splitWS e.2))

/-- The values associated with key `k` in a pair stream, in stream order. -/
def gather (l : List (Int × String)) (k : Int) : List String :=
  l.filterMap (fun p => if p.1 = k then some p.2 else none)

/-- Insert a key into a strictly sorted list of keys, keeping it strictly
sorted and duplicate-free. -/
def insertKey (k : Int) : List Int → List Int
  | [] => [k]
  | x :: xs => if k < x then k :: x :: xs else if k = x then x :: xs else x :: insertKey k xs

/-- The distinct keys of a pair stream in ascending order. -/
def keysOf (l : List (Int × String)) : List Int :=
  l.foldr (fun p acc => insertKey p.1 acc) []

/-- Reference semantics of group-by (spec §1 and §8): groups in ascending key
order, each key's values in input order. -/
def refGroupBy (l : List (Int × String)) : List (Int × List String) :=
  (keysOf l).map (fun k => (k, gather l k))

/-- Flattening a grouped output back to a pair stream. -/
def flattenGroups (gs : List (Int × List String)) : List (Int × String) :=
  (gs.map (fun g => g.2.map (fun v => (g.1, v)))).flatten

/-! ### Split / join round trip -/

theorem splitWSAux_token (t : List Char) (ht : ∀ c ∈ t, ¬c.isWhitespace) :
    ∀ (l acc : List Char), splitWSAux (t ++ l) acc = splitWSAux l (t.reverse ++ acc) := by
  induction t with
  | nil => intro l acc; simp
  | cons c cs ih =>
    intro l acc
    have hc : ¬c.isWhitespace := ht c (by simp)
    have hcs : ∀ c ∈ cs, ¬c.isWhitespace := fun x hx => ht x (by simp [hx])
    simp only [List.cons_append, splitWSAux]
    rw [if_neg (by simp [hc])]
    rw [show cs.append l = cs ++ l from rfl, ih hcs l (c :: acc)]
    simp

theorem splitWSAux_nil (acc : List Char) :
    splitWSAux [] acc = if acc = [] then [] else [acc.reverse] := rfl

theorem splitWSAux_space (l : List Char) (acc : List Char) (hacc : acc ≠ []) :
    splitWSAux (' ' :: l) acc = acc.reverse :: splitWSAux l [] := by
  simp [splitWSAux, hacc]

/-- Round trip of `" ".join` and `split()` at the character level. -/
theorem splitWSChars_joinSpaceChars (ls : List (List Char))
    (h : ∀ l ∈ ls, l ≠ [] ∧ ∀ c ∈ l, ¬c.isWhitespace) :
    splitWSChars (joinSpaceChars ls) = ls := by
  induction ls with
  | nil => rfl
  | cons l ls ih =>
    match ls, ih with
    | [], _ =>
      have hl := h l (by simp)
      unfold splitWSChars
      rw [joinSpaceChars, show l = l ++ [] from (List.append_nil l).symm]
      rw [splitWSAux_token l hl.2 [] []]
      simp [splitWSAux_nil, hl.1]
    | l' :: ls', ih =>
      have hl := h l (by simp)
      have hrest : ∀ x ∈ l' :: ls', x ≠ [] ∧ ∀ c ∈ x, ¬c.isWhitespace := by
        intro x hx; exact h x (by simp [hx])
      unfold splitWSChars at *
      rw [joinSpaceChars, splitWSAux_token l hl.2 _ []]
      rw [List.append_nil]
      rw [splitWSAux_space _ _ (by simp [hl.1])]
      rw [List.reverse_reverse]
      exact congrArg (l :: ·) (ih hrest)

theorem String.mk_data (s : String) : String.mk s.data = s := rfl

theorem goodTok_iff (s : String) :
    goodTok s = true ↔ s.data ≠ [] ∧ ∀ c ∈ s.data, ¬c.isWhitespace := by
  simp [goodTok, List.isEmpty_iff]

/-- Round trip of `" ".join` and `split()` for good tokens. -/
theorem splitWS_joinSpace (vs : List String) (h : ∀ v ∈ vs, goodTok v = true) :
    splitWS (joinSpace vs) = vs := by
  unfold splitWS joinSpace
  have hdata : (String.mk (joinSpaceChars (vs.map String.data))).data
      = joinSpaceChars (vs.map String.data) := rfl
  rw [hdata, splitWSChars_joinSpaceChars]
  · rw [List.map_map]
    have : (String.mk ∘ String.data) = id := funext fun v => String.mk_data v
    rw [this, List.map_id]
  · intro l hl
    simp only [List.mem_map] at hl
    obtain ⟨v, hv, rfl⟩ := hl
    exact (goodTok_iff v).1 (h v hv)

/-! ### Reference group-by lemmas -/

theorem gather_append (a b : List (Int × String)) (k : Int) :
    gather (a ++ b) k = gather a k ++ gather b k := by
  simp [gather, List.filterMap_append]

theorem gather_flatten (l : List (List (Int × String))) (k : Int) :
    gather l.flatten k = (l.map (fun c => gather c k)).flatten := by
  induction l with
  | nil => rfl
  | cons c cs ih => simp [gather_append, ih]

theorem mem_gather_of_mem {c : List (Int × String)} {k : Int} {v : String}
    (h : (k, v) ∈ c) : v ∈ gather c k := by
  induction c with
  | nil => simp at h
  | cons p ps ih =>
    rw [show p :: ps = [p] ++ ps from rfl, gather_append]
    rcases List.mem_cons.1 h with heq | hmem
    · rw [← heq]
      simp [gather, List.filterMap_cons]
    · exact List.mem_append_right _ (ih hmem)

theorem gather_eq_nil_of_not_mem {c : List (Int × String)} {k : Int}
    (h : k ∉ c.map Prod.fst) : gather c k = [] := by
  induction c with
  | nil => rfl
  | cons p ps ih =>
    have h1 : p.1 ≠ k := by
      intro hc; apply h; rw [List.map_cons, hc]; exact List.mem_cons_self _ _
    have h2 : k ∉ ps.map Prod.fst := by
      intro hc; exact h (by rw [List.map_cons]; exact List.mem_cons_of_mem _ hc)
    rw [show p :: ps = [p] ++ ps from rfl, gather_append, ih h2]
    simp [gather, List.filterMap_cons, h1]

theorem mem_insertKey (k x : Int) (l : List Int) :
    x ∈ insertKey k l ↔ x = k ∨ x ∈ l := by
  induction l with
  | nil => simp [insertKey]
  | cons y ys ih =>
    by_cases h1 : k < y
    · rw [insertKey, if_pos h1]
      simp only [List.mem_cons]
    · by_cases h2 : k = y
      · subst h2
        rw [insertKey, if_neg h1, if_pos rfl]
        simp only [List.mem_cons]
        tauto
      · rw [insertKey, if_neg h1, if_neg h2]
        simp only [List.mem_cons, ih]
        tauto

theorem sorted_insertKey (k : Int) (l : List Int) (h : l.Pairwise (· < ·)) :
    (insertKey k l).Pairwise (· < ·) := by
  induction l with
  | nil => simp [insertKey]
  | cons y ys ih =>
    rcases List.pairwise_cons.1 h with ⟨hy, hys⟩
    by_cases h1 : k < y
    · rw [insertKey, if_pos h1]
      refine List.pairwise_cons.2 ⟨?_, h⟩
      intro a ha
      rcases List.mem_cons.1 ha with ha | ha
      · rw [ha]; exact h1
      · exact lt_trans h1 (hy a ha)
    · by_cases h2 : k = y
      · rw [insertKey, if_neg h1, if_pos h2]; exact h
      · rw [insertKey, if_neg h1, if_neg h2]
        refine List.pairwise_cons.2 ⟨?_, ih hys⟩
        intro a ha
        rcases (mem_insertKey k a ys).1 ha with ha | ha
        · subst ha; omega
        · exact hy a ha

theorem mem_keysOf (l : List (Int × String)) (k : Int) :
    k ∈ keysOf l ↔ k ∈ l.map Prod.fst := by
  induction l with
  | nil => simp [keysOf]
  | cons p ps ih =>
    show k ∈ insertKey p.1 (keysOf ps) ↔ _
    rw [mem_insertKey, List.map_cons, List.mem_cons, ih]

theorem sorted_keysOf (l : List (Int × String)) : (keysOf l).Pairwise (· < ·) := by
  induction l with
  | nil => simp [keysOf]
  | cons p ps ih => exact sorted_insertKey p.1 _ ih

theorem gather_ne_nil_of_mem_keysOf {c : List (Int × String)} {k : Int}
    (h : k ∈ keysOf c) : gather c k ≠ [] := by
  rw [mem_keysOf, List.mem_map] at h
  obtain ⟨p, hp, hk⟩ := h
  have : p.2 ∈ gather c k := mem_gather_of_mem (by rw [show (k, p.2) = p from by rw [← hk]]; exact hp)
  intro hnil
  rw [hnil] at this
  simp at this

/-- Two strictly sorted lists with the same members are equal. -/
theorem sorted_mem_ext : ∀ (l₁ l₂ : List Int), l₁.Pairwise (· < ·) →
    l₂.Pairwise (· < ·) → (∀ x, x ∈ l₁ ↔ x ∈ l₂) → l₁ = l₂ := by
  intro l₁
  induction l₁ with
  | nil =>
    intro l₂ _ _ hmem
    cases l₂ with
    | nil => rfl
    | cons y ys => exact absurd ((hmem y).2 (by simp)) (by simp)
  | cons x xs ih =>
    intro l₂ h₁ h₂ hmem
    cases l₂ with
    | nil => exact absurd ((hmem x).1 (by simp)) (by simp)
    | cons y ys =>
      rcases List.pairwise_cons.1 h₁ with ⟨hx, hxs⟩
      rcases List.pairwise_cons.1 h₂ with ⟨hy, hys⟩
      have hxy : x = y := by
        rcases List.mem_cons.1 ((hmem x).1 (by simp)) with h | h
        · exact h
        · rcases List.mem_cons.1 ((hmem y).2 (by simp)) with h' | h'
          · exact h'.symm
          · have hlt1 := hx y h'
            have hlt2 := hy x h
            omega
      subst hxy
      have htail : xs = ys := by
        refine ih ys hxs hys ?_
        intro a
        constructor
        · intro ha
          rcases List.mem_cons.1 ((hmem a).1 (List.mem_cons_of_mem _ ha)) with h | h
          · exact absurd (hx a ha) (by omega)
          · exact h
        · intro ha
          rcases List.mem_cons.1 ((hmem a).2 (List.mem_cons_of_mem _ ha)) with h | h
          · exact absurd (hy a ha) (by omega)
          · exact h
      rw [htail]

theorem keysOf_eq_of_mem_iff {a b : List (Int × String)}
    (h : ∀ k, k ∈ a.map Prod.fst ↔ k ∈ b.map Prod.fst) : keysOf a = keysOf b :=
  sorted_mem_ext _ _ (sorted_keysOf a) (sorted_keysOf b)
    (fun k => by rw [mem_keysOf, mem_keysOf]; exact h k)

/-- `refGroupBy` is determined by key membership and per-key gathers. -/
theorem refGroupBy_eq_of {a b : List (Int × String)}
    (hmem : ∀ k, k ∈ a.map Prod.fst ↔ k ∈ b.map Prod.fst)
    (hg : ∀ k, gather a k = gather b k) : refGroupBy a = refGroupBy b := by
  unfold refGroupBy
  rw [keysOf_eq_of_mem_iff hmem]
  exact List.map_congr_left (fun k _ => by rw [hg k])

theorem gather_pairMap (j k : Int) (vs : List String) :
    gather (vs.map (fun v => (j, v))) k = if j = k then vs else [] := by
  induction vs with
  | nil => simp [gather]
  | cons v vs ih =>
    simp only [List.map_cons, gather, List.filterMap_cons] at ih ⊢
    by_cases hj : j = k
    · simp only [if_pos hj] at ih ⊢
      rw [ih]
    · simp only [if_neg hj] at ih ⊢
      rw [ih]

theorem flatten_map_ite {β : Type} (k : Int) (f : Int → List β) :
    ∀ (ks : List Int), ks.Pairwise (· < ·) →
      (ks.map (fun j => if j = k then f j else [])).flatten = if k ∈ ks then f k else [] := by
  intro ks
  induction ks with
  | nil => simp
  | cons j js ih =>
    intro hs
    rcases List.pairwise_cons.1 hs with ⟨hj, hjs⟩
    by_cases hjk : j = k
    · subst hjk
      have hnot : j ∉ js := fun hmem => by have := hj j hmem; omega
      simp only [List.map_cons, List.flatten_cons, if_pos rfl, ih hjs, if_neg hnot]
      simp
    · have hmem : (k ∈ j :: js) ↔ (k ∈ js) := by
        constructor
        · intro h
          rcases List.mem_cons.1 h with h | h
          · exact absurd h.symm hjk
          · exact h
        · exact fun h => List.mem_cons_of_mem _ h
      simp only [List.map_cons, List.flatten_cons, if_neg hjk, ih hjs, List.nil_append]
      by_cases hk : k ∈ js
      · rw [if_pos hk, if_pos (hmem.2 hk)]
      · rw [if_neg hk, if_neg (fun hc => hk (hmem.1 hc))]

theorem gather_flattenGroups_refGroupBy (c : List (Int × String)) (k : Int) :
    gather (flattenGroups (refGroupBy c)) k = gather c k := by
  unfold flattenGroups refGroupBy
  rw [gather_flatten, List.map_map, List.map_map]
  have hmap : List.map (((fun c1 => gather c1 k) ∘
        (fun g : Int × List String => g.2.map fun v => (g.1, v))) ∘
        fun j => (j, gather c j)) (keysOf c)
      = List.map (fun j => if j = k then gather c j else []) (keysOf c) :=
    List.map_congr_left (fun j _ => by
      simp only [Function.comp]
      exact gather_pairMap j k (gather c j))
  rw [hmap, flatten_map_ite k (fun j => gather c j) _ (sorted_keysOf c)]
  by_cases hk : k ∈ keysOf c
  · rw [if_pos hk]
  · rw [if_neg hk]
    exact (gather_eq_nil_of_not_mem (fun hc => hk ((mem_keysOf c k).2 hc))).symm

theorem gather_cons (j k : Int) (w : String) (ps : List (Int × String)) :
    gather ((j, w) :: ps) k = if j = k then w :: gather ps k else gather ps k := by
  by_cases hj : j = k <;> simp [gather, List.filterMap_cons, hj]

theorem sorted_min_cons (l : List Int) (k : Int) (hs : l.Pairwise (· < ·)) (hmem : k ∈ l)
    (hmin : ∀ j ∈ l, k ≤ j) : l = k :: l.filter (fun j => !(j == k)) := by
  cases l with
  | nil => simp at hmem
  | cons x xs =>
    rcases List.pairwise_cons.1 hs with ⟨hx, hxs⟩
    have hxk : x = k := by
      rcases List.mem_cons.1 hmem with h | h
      · exact h.symm
      · have h1 := hx k h
        have h2 := hmin x (by simp)
        omega
    subst hxk
    have hfilter : xs.filter (fun j => !(j == x)) = xs :=
      List.filter_eq_self.2 (fun j hj => by
        have := hx j hj
        simp
        omega)
    rw [List.filter_cons]
    simp [hfilter]

theorem keysOf_filter_ne (c : List (Int × String)) (k : Int) :
    keysOf (c.filter (fun p => !(p.1 == k))) = (keysOf c).filter (fun j => !(j == k)) := by
  refine sorted_mem_ext _ _ (sorted_keysOf _) (List.Pairwise.filter _ (sorted_keysOf c)) ?_
  intro x
  rw [mem_keysOf, List.mem_filter, mem_keysOf]
  simp only [List.mem_map, List.mem_filter]
  constructor
  · rintro ⟨p, ⟨hp, hpk⟩, rfl⟩
    exact ⟨⟨p, hp, rfl⟩, hpk⟩
  · rintro ⟨⟨p, hp, rfl⟩, hpk⟩
    exact ⟨p, ⟨hp, hpk⟩, rfl⟩

theorem gather_filter_ne (c : List (Int × String)) (k k' : Int) (h : k' ≠ k) :
    gather (c.filter (fun p => !(p.1 == k))) k' = gather c k' := by
  induction c with
  | nil => rfl
  | cons p ps ih =>
    obtain ⟨j, w⟩ := p
    rw [List.filter_cons]
    by_cases hj : j = k
    · subst hj
      have hjk' : j ≠ k' := fun hc => h hc.symm
      have hb : ((j, w).1 == j) = true := by simp
      rw [hb, Bool.not_true, if_neg (by simp), ih, gather_cons, if_neg hjk']
    · have hb : ((j, w).1 == k) = false := by simp [hj]
      rw [hb, Bool.not_false, if_pos rfl, gather_cons, gather_cons, ih]

theorem refGroupBy_peel (c : List (Int × String)) (k : Int) (hmem : k ∈ keysOf c)
    (hmin : ∀ j ∈ keysOf c, k ≤ j) :
    refGroupBy c = (k, gather c k) :: refGroupBy (c.filter (fun p => !(p.1 == k))) := by
  unfold refGroupBy
  rw [keysOf_filter_ne]
  have hk : keysOf c = k :: (keysOf c).filter (fun j => !(j == k)) :=
    sorted_min_cons _ k (sorted_keysOf c) hmem hmin
  conv_lhs => rw [hk]
  rw [List.map_cons]
  congr 1
  refine List.map_congr_left (fun j hj => ?_)
  have hjk : j ≠ k := by
    rcases List.mem_filter.1 hj with ⟨_, hne⟩
    simpa using hne
  rw [gather_filter_ne c k j hjk]

theorem gather_map_pair (c : List (Int × String)) (k : Int) :
    (gather c k).map (fun v => (k, v)) = c.filter (fun p => p.1 == k) := by
  induction c with
  | nil => rfl
  | cons p ps ih =>
    obtain ⟨j, w⟩ := p
    rw [gather_cons, List.filter_cons]
    by_cases hj : j = k
    · subst hj
      rw [if_pos rfl, List.map_cons, ih]
      simp
    · rw [if_neg hj, ih]
      simp [hj]

/-- Flattening the reference grouping recovers the input stream as a
multiset. -/
theorem flattenGroups_refGroupBy_perm (c : List (Int × String)) :
    (flattenGroups (refGroupBy c)).Perm c := by
  suffices H : ∀ n (c : List (Int × String)), c.length ≤ n →
      (flattenGroups (refGroupBy c)).Perm c from H c.length c le_rfl
  intro n
  induction n with
  | zero =>
    intro c hc
    have hnil : c = [] := List.length_eq_zero.1 (Nat.le_zero.1 hc)
    subst hnil
    exact List.Perm.refl _
  | succ n ih =>
    intro c hc
    by_cases hc0 : c = []
    · subst hc0; exact List.Perm.refl _
    · have hkeys : keysOf c ≠ [] := by
        cases c with
        | nil => exact absurd rfl hc0
        | cons p ps =>
          intro h
          have hmem := (mem_keysOf (p :: ps) p.1).2 (by simp)
          rw [h] at hmem
          simp at hmem
      obtain ⟨k, ks, hk⟩ := List.exists_cons_of_ne_nil hkeys
      have hmem : k ∈ keysOf c := by rw [hk]; simp
      have hmin : ∀ j ∈ keysOf c, k ≤ j := by
        intro j hj
        have hs := sorted_keysOf c
        rw [hk] at hs hj
        rcases List.mem_cons.1 hj with h | h
        · omega
        · rcases List.pairwise_cons.1 hs with ⟨hlt, _⟩
          have := hlt j h
          omega
      rw [refGroupBy_peel c k hmem hmin]
      have hflat : flattenGroups ((k, gather c k) :: refGroupBy (c.filter (fun p => !(p.1 == k))))
          = (gather c k).map (fun v => (k, v)) ++
            flattenGroups (refGroupBy (c.filter (fun p => !(p.1 == k)))) := rfl
      rw [hflat, gather_map_pair]
      have hsplit : (c.filter (fun p => p.1 == k)).length +
          (c.filter (fun p => !(p.1 == k))).length = c.length := by
        rw [← List.length_append]
        exact (List.filter_append_perm _ c).length_eq
      have hpos : 0 < (c.filter (fun p => p.1 == k)).length := by
        rw [mem_keysOf, List.mem_map] at hmem
        obtain ⟨p, hp, hpk⟩ := hmem
        have hpmem : p ∈ c.filter (fun p => p.1 == k) := List.mem_filter.2 ⟨hp, by simp [hpk]⟩
        exact List.length_pos.2 (fun hnil => by rw [hnil] at hpmem; simp at hpmem)
      have hlen : (c.filter (fun p => !(p.1 == k))).length ≤ n := by omega
      exact List.Perm.trans (List.Perm.append_left _ (ih _ hlen))
        (List.filter_append_perm _ c)

/-! ### The in-memory multimap (`defaultdict(list)`) -/

/-- The accumulator's hashmap `key → list of values`, as an association list
in first-insertion key order (the key order is irrelevant: the engine only
reads it through `sorted(hashmap.keys())`). -/
abbrev Hashmap := List (Int × List String)

/-- `hashmap[key].append(str(value))` on a `defaultdict(list)`. -/
def hmInsert (m : Hashmap) (k : Int) (v : String) : Hashmap :=
  match m with
  | [] => [(k, [v])]
  | (k', vs) :: rest => if k' = k then (k', vs ++ [v]) :: rest else (k', vs) :: hmInsert rest k v

/-- The hashmap obtained by inserting a pair stream in order. -/
def hmOf (l : List (Int × String)) : Hashmap := l.foldl (fun m p => hmInsert m p.1 p.2) []

/-- Total number of individual values held in the hashmap (the quantity the
spec's memory bound speaks about). -/
def hmSize (m : Hashmap) : Nat := (m.map (fun kv => kv.2.length)).sum

/-- First-match lookup of a key's value list. -/
def hmVals (m : Hashmap) (k : Int) : List String :=
  match m with
  | [] => []
  | (k', vs) :: rest => if k' = k then vs else hmVals rest k

/-- `[(key, hashmap[key]) for key in sorted(hashmap.keys())]` realised as an
insertion sort of the association list by key. -/
def insertItem (x : Int × List String) : List (Int × List String) → List (Int × List String)
  | [] => [x]
  | y :: ys => if x.1 ≤ y.1 then x :: y :: ys else y :: insertItem x ys

def sortItems (m : Hashmap) : List (Int × List String) := m.foldr insertItem []

/-- File content written by `GroupByStatement._dump_hashmap_to_disk` (the
counter and statistics updates are modelled in the chunking state machine). -/
def dump_hashmap_to_disk (m : Hashmap) : RunFile := write_key_values_to_file (sortItems m)

theorem hmInsert_cons (j : Int) (vs : List String) (rest : Hashmap) (k : Int) (v : String) :
    hmInsert ((j, vs) :: rest) k v
      = if j = k then (j, vs ++ [v]) :: rest else (j, vs) :: hmInsert rest k v := rfl

theorem hmVals_cons (j : Int) (vs : List String) (rest : Hashmap) (k : Int) :
    hmVals ((j, vs) :: rest) k = if j = k then vs else hmVals rest k := rfl

theorem hmVals_insert_self (m : Hashmap) (k : Int) (v : String) :
    hmVals (hmInsert m k v) k = hmVals m k ++ [v] := by
  induction m with
  | nil => simp [hmInsert, hmVals]
  | cons p rest ih =>
    obtain ⟨j, vs⟩ := p
    rw [hmInsert_cons]
    by_cases h : j = k
    · rw [if_pos h, hmVals_cons, hmVals_cons, if_pos h, if_pos h]
    · rw [if_neg h, hmVals_cons, hmVals_cons, if_neg h, if_neg h, ih]

theorem hmVals_insert_other (m : Hashmap) (k k' : Int) (v : String) (h : k' ≠ k) :
    hmVals (hmInsert m k v) k' = hmVals m k' := by
  induction m with
  | nil =>
    show hmVals [(k, [v])] k' = hmVals [] k'
    rw [hmVals_cons, if_neg (fun hc => h hc.symm)]
  | cons p rest ih =>
    obtain ⟨j, vs⟩ := p
    rw [hmInsert_cons]
    by_cases hj : j = k
    · rw [if_pos hj, hmVals_cons, hmVals_cons,
        if_neg (fun hc : j = k' => h (hj ▸ hc).symm),
        if_neg (fun hc : j = k' => h (hj ▸ hc).symm)]
    · rw [if_neg hj, hmVals_cons, hmVals_cons, ih]

theorem mem_fst_hmInsert (m : Hashmap) (k : Int) (v : String) (x : Int) :
    x ∈ (hmInsert m k v).map Prod.fst ↔ x = k ∨ x ∈ m.map Prod.fst := by
  induction m with
  | nil => simp [hmInsert]
  | cons p rest ih =>
    obtain ⟨j, vs⟩ := p
    rw [hmInsert_cons]
    by_cases hj : j = k
    · subst hj
      rw [if_pos rfl]
      simp only [List.map_cons, List.mem_cons]
      tauto
    · rw [if_neg hj]
      simp only [List.map_cons, List.mem_cons, ih]
      tauto

theorem mem_fst_of_mem_hmInsert {m : Hashmap} {k : Int} {v : String} {p : Int × List String}
    (h : p ∈ hmInsert m k v) : p.1 = k ∨ p.1 ∈ m.map Prod.fst := by
  have : p.1 ∈ (hmInsert m k v).map Prod.fst := List.mem_map.2 ⟨p, h, rfl⟩
  exact (mem_fst_hmInsert m k v p.1).1 this

theorem distinct_hmInsert (m : Hashmap) (k : Int) (v : String)
    (h : m.Pairwise (fun a b => a.1 ≠ b.1)) :
    (hmInsert m k v).Pairwise (fun a b => a.1 ≠ b.1) := by
  induction m with
  | nil => simp [hmInsert]
  | cons p rest ih =>
    obtain ⟨j, vs⟩ := p
    rcases List.pairwise_cons.1 h with ⟨hj, hrest⟩
    rw [hmInsert_cons]
    by_cases hjk : j = k
    · rw [if_pos hjk]
      exact List.pairwise_cons.2 ⟨fun b hb => hj b hb, hrest⟩
    · rw [if_neg hjk]
      refine List.pairwise_cons.2 ⟨?_, ih hrest⟩
      intro b hb
      rcases mem_fst_of_mem_hmInsert hb with hbk | hbm
      · rw [hbk]; exact hjk
      · rw [List.mem_map] at hbm
        obtain ⟨q, hq, hqf⟩ := hbm
        rw [← hqf]
        exact hj q hq

theorem hmOf_append_single (l : List (Int × String)) (k : Int) (v : String) :
    hmOf (l ++ [(k, v)]) = hmInsert (hmOf l) k v := by
  unfold hmOf
  rw [List.foldl_append]
  rfl

theorem hmVals_hmOf (l : List (Int × String)) (k : Int) :
    hmVals (hmOf l) k = gather l k := by
  induction l using List.reverseRecOn with
  | nil => rfl
  | append_singleton l p ih =>
    obtain ⟨j, v⟩ := p
    rw [hmOf_append_single, gather_append, gather_cons]
    by_cases hj : j = k
    · subst hj
      rw [hmVals_insert_self, ih, if_pos rfl]
      simp [gather]
    · rw [hmVals_insert_other _ _ _ _ (fun hc => hj hc.symm), ih, if_neg hj]
      simp [gather]

theorem mem_fst_hmOf (l : List (Int × String)) (x : Int) :
    x ∈ (hmOf l).map Prod.fst ↔ x ∈ l.map Prod.fst := by
  induction l using List.reverseRecOn with
  | nil => simp [hmOf]
  | append_singleton l p ih =>
    obtain ⟨j, v⟩ := p
    rw [hmOf_append_single, mem_fst_hmInsert, List.map_append, List.mem_append, ih]
    simp [List.mem_cons]
    tauto

theorem distinct_hmOf (l : List (Int × String)) :
    (hmOf l).Pairwise (fun a b => a.1 ≠ b.1) := by
  induction l using List.reverseRecOn with
  | nil => simp [hmOf]
  | append_singleton l p ih =>
    obtain ⟨j, v⟩ := p
    rw [hmOf_append_single]
    exact distinct_hmInsert _ _ _ ih

theorem val_eq_hmVals {m : Hashmap} (h : m.Pairwise (fun a b => a.1 ≠ b.1)) :
    ∀ p ∈ m, p.2 = hmVals m p.1 := by
  induction m with
  | nil => intro p hp; simp at hp
  | cons q rest ih =>
    obtain ⟨j, vs⟩ := q
    rcases List.pairwise_cons.1 h with ⟨hj, hrest⟩
    intro p hp
    rcases List.mem_cons.1 hp with heq | hmem
    · subst heq
      rw [hmVals_cons, if_pos rfl]
    · rw [hmVals_cons, if_neg (fun hc => (hj p hmem) hc), ih hrest p hmem]

theorem mem_refGroupBy (c : List (Int × String)) (k : Int) (vs : List String) :
    (k, vs) ∈ refGroupBy c ↔ k ∈ keysOf c ∧ vs = gather c k := by
  unfold refGroupBy
  rw [List.mem_map]
  constructor
  · rintro ⟨j, hj, heq⟩
    injection heq with h1 h2
    subst h1
    exact ⟨hj, h2.symm⟩
  · rintro ⟨hk, rfl⟩
    exact ⟨k, hk, rfl⟩

theorem map_fst_refGroupBy (c : List (Int × String)) :
    (refGroupBy c).map Prod.fst = keysOf c := by
  unfold refGroupBy
  rw [List.map_map]
  exact List.map_id _

theorem sorted_refGroupBy (c : List (Int × String)) :
    (refGroupBy c).Pairwise (fun a b => a.1 < b.1) := by
  have h := sorted_keysOf c
  rw [← map_fst_refGroupBy] at h
  exact (List.pairwise_map).1 h

theorem hmOf_perm_refGroupBy (c : List (Int × String)) :
    (hmOf c).Perm (refGroupBy c) := by
  have hnd1 : (hmOf c).Nodup :=
    (distinct_hmOf c).imp (fun hne heq => hne (congrArg Prod.fst heq))
  have hnd2 : (refGroupBy c).Nodup :=
    (sorted_refGroupBy c).imp (fun hlt heq => absurd (congrArg Prod.fst heq) (by omega))
  rw [List.perm_ext_iff_of_nodup hnd1 hnd2]
  intro p
  obtain ⟨k, vs⟩ := p
  rw [mem_refGroupBy]
  constructor
  · intro hp
    have hk : k ∈ (hmOf c).map Prod.fst := List.mem_map.2 ⟨(k, vs), hp, rfl⟩
    have hk' : k ∈ keysOf c := (mem_keysOf c k).2 ((mem_fst_hmOf c k).1 hk)
    have hv : vs = hmVals (hmOf c) k := val_eq_hmVals (distinct_hmOf c) (k, vs) hp
    exact ⟨hk', by rw [hv, hmVals_hmOf]⟩
  · rintro ⟨hk, rfl⟩
    have hk' : k ∈ (hmOf c).map Prod.fst :=
      (mem_fst_hmOf c k).2 ((mem_keysOf c k).1 hk)
    rw [List.mem_map] at hk'
    obtain ⟨p, hp, hpf⟩ := hk'
    have hv := val_eq_hmVals (distinct_hmOf c) p hp
    rw [hmVals_hmOf] at hv
    have : p = (k, gather c k) := by
      obtain ⟨pk, pv⟩ := p
      simp only at hpf hv
      rw [hpf] at hv ⊢
      rw [hv]
    rw [← this]
    exact hp

theorem insertItem_perm (x : Int × List String) (l : List (Int × List String)) :
    (insertItem x l).Perm (x :: l) := by
  induction l with
  | nil => exact List.Perm.refl _
  | cons y ys ih =>
    rw [insertItem]
    by_cases h : x.1 ≤ y.1
    · rw [if_pos h]
    · rw [if_neg h]
      exact List.Perm.trans (List.Perm.cons y ih) (List.Perm.swap x y ys)

theorem sortItems_perm (m : Hashmap) : (sortItems m).Perm m := by
  induction m with
  | nil => exact List.Perm.refl _
  | cons p rest ih =>
    show (insertItem p (sortItems rest)).Perm _
    exact List.Perm.trans (insertItem_perm p (sortItems rest)) (List.Perm.cons p ih)

theorem insertItem_sorted (x : Int × List String) (l : List (Int × List String))
    (h : l.Pairwise (fun a b => a.1 ≤ b.1)) :
    (insertItem x l).Pairwise (fun a b => a.1 ≤ b.1) := by
  induction l with
  | nil => simp [insertItem]
  | cons y ys ih =>
    rcases List.pairwise_cons.1 h with ⟨hy, hys⟩
    rw [insertItem]
    by_cases hxy : x.1 ≤ y.1
    · rw [if_pos hxy]
      refine List.pairwise_cons.2 ⟨?_, h⟩
      intro b hb
      rcases List.mem_cons.1 hb with hb | hb
      · rw [hb]; exact hxy
      · exact le_trans hxy (hy b hb)
    · rw [if_neg hxy]
      refine List.pairwise_cons.2 ⟨?_, ih hys⟩
      intro b hb
      have hmemb := (insertItem_perm x ys).mem_iff.1 hb
      rcases List.mem_cons.1 hmemb with hb' | hb'
      · rw [hb']; omega
      · exact hy b hb'

theorem sortItems_sorted (m : Hashmap) :
    (sortItems m).Pairwise (fun a b => a.1 ≤ b.1) := by
  induction m with
  | nil => simp [sortItems]
  | cons p rest ih => exact insertItem_sorted p _ ih

instance : IsAntisymm (Int × List String) (fun a b => a.1 < b.1) :=
  ⟨fun _ _ h1 h2 => absurd (lt_trans h1 h2) (lt_irrefl _)⟩

/-- Accumulating a pair stream into the hashmap and writing it out sorted
yields exactly the reference grouping of the stream. -/
theorem sortItems_hmOf (c : List (Int × String)) : sortItems (hmOf c) = refGroupBy c := by
  have hperm : (sortItems (hmOf c)).Perm (refGroupBy c) :=
    (sortItems_perm _).trans (hmOf_perm_refGroupBy c)
  have hnd : ((sortItems (hmOf c)).map Prod.fst).Nodup := by
    have hnd2 : (keysOf c).Nodup := (sorted_keysOf c).imp (fun h => by omega)
    rw [← map_fst_refGroupBy] at hnd2
    exact ((hperm.map Prod.fst).nodup_iff).2 hnd2
  have hs1 : (sortItems (hmOf c)).Pairwise (fun a b => a.1 < b.1) := by
    have hne : (sortItems (hmOf c)).Pairwise (fun a b => a.1 ≠ b.1) :=
      (List.pairwise_map).1 hnd
    exact ((sortItems_sorted (hmOf c)).and hne).imp
      (fun h => lt_of_le_of_ne h.1 h.2)
  exact List.eq_of_perm_of_sorted hperm hs1 (sorted_refGroupBy c)

/-! ### The K-way merge (`MergeFileIterator`) -/

/-- One element of the `MergeFileIterator` heap: the pushed tuple
`(key, index, f)` together with the state of file `f` — the values line that
belongs to `key` (the next `next(f)` reads it) and the entries not yet
reached. -/
structure HeapElem where
  key : Int
  idx : Nat
  line : String
  rest : RunFile
deriving DecidableEq

/-- The `heapq` tuple comparison on `(key, index, …)`; the file objects are
never compared because file indices are distinct. -/
def heapLEb (a b : HeapElem) : Bool :=
  decide (a.key < b.key) || (decide (a.key = b.key) && decide (a.idx ≤ b.idx))

/-- Strict heap order; with distinct indices `heapLEb` and `heapLT` agree. -/
def heapLT (a b : HeapElem) : Prop :=
  a.key < b.key ∨ (a.key = b.key ∧ a.idx < b.idx)

/-- `heapq.heappush`: the heap is modelled by the list of its elements kept
sorted in heap order, so that the head is the minimum (`heap[0]`). -/
def heapPush (e : HeapElem) : List HeapElem → List HeapElem
  | [] => [e]
  | x :: xs => if heapLEb e x then e :: x :: xs else x :: heapPush e xs

/-- Number of unread `(key, values)` entries an element stands for. -/
def elemSize (e : HeapElem) : Nat := 1 + e.rest.length

def heapSize (h : List HeapElem) : Nat := (h.map elemSize).sum

/-- `MergeFileIterator.__init__`: open each file in order, read its first key
line and push `(key, index, f)`.  On a fully empty file the `int(next(f))`
raises `StopIteration` out of the constructor, modelled as `none`. -/
def mergeInitAux : Nat → List RunFile → List HeapElem → Option (List HeapElem)
  | _, [], h => some h
  | i, f :: fs, h =>
    match f with
    | [] => none
    | (k, line) :: r => mergeInitAux (i + 1) fs (heapPush ⟨k, i, line, r⟩ h)

def mergeInit (files : List RunFile) : Option (List HeapElem) := mergeInitAux 0 files []

/-- The inner `while` loop of `MergeFileIterator.__next__`: pop every element
whose key equals `current_key`, split its values line, and push the file's
next key back (or close the file at EOF).  The fuel only needs to cover the
loop's iteration count; `heapSize` is enough (proved below). -/
def popKeyF : Nat → Int → List HeapElem → List String × List HeapElem
  | 0, _, h => ([], h)
  | fuel + 1, k, h =>
    match h with
    | [] => ([], [])
    | e :: t =>
      if e.key = k then
        let h2 := match e.rest with
          | [] => t
          | (k', l') :: r' => heapPush ⟨k', e.idx, l', r'⟩ t
        let res := popKeyF fuel k h2
        (splitWS e.line ++ res.1, res.2)
      else ([], e :: t)

/-- `MergeFileIterator.__next__` (`StopIteration` on an empty heap is
`none`). -/
def mergeNext (h : List HeapElem) : Option ((Int × List String) × List HeapElem) :=
  match h with
  | [] => none
  | e :: _ =>
    let res := popKeyF (heapSize h) e.key h
    some ((e.key, res.1), res.2)

/-- Fully draining the iterator, i.e. the stream a caller looping on
`hasNext()` observes. -/
def mergeDrainF : Nat → List HeapElem → List (Int × List String)
  | 0, _ => []
  | fuel + 1, h =>
    match mergeNext h with
    | none => []
    | some (g, h') => g :: mergeDrainF fuel h'

def mergeDrain (h : List HeapElem) : List (Int × List String) := mergeDrainF (heapSize h) h

/-- `MergeFileIterator` as a whole-stream function: construct over the file
list, then drain. -/
def MergeFileIterator (files : List RunFile) : Option (List (Int × List String)) :=
  (mergeInit files).map mergeDrain

/-- The `(key, index, f)` tuple pushed when file `f` still has entries after
its current one (`except StopIteration: f.close()` otherwise). -/
def succOf (e : HeapElem) : Option HeapElem :=
  match e.rest with
  | [] => none
  | (k', l') :: r' => some ⟨k', e.idx, l', r'⟩

/-- The parsed entries an element still stands for. -/
def elemEntries (e : HeapElem) : List (Int × List String) :=
  (e.key, splitWS e.line) :: parseFile e.rest

def elemPairs (e : HeapElem) : List (Int × String) := flattenGroups (elemEntries e)

/-- The unique heap element reading file `i`, if that file is not yet
exhausted. -/
def heapFind (h : List HeapElem) (i : Nat) : Option HeapElem :=
  h.find? (fun e => e.idx == i)

/-- The pairs file `i` still has to contribute. -/
def pairsAt (h : List HeapElem) (i : Nat) : List (Int × String) :=
  match heapFind h i with
  | some e => elemPairs e
  | none => []

/-- All pairs the heap still has to contribute, grouped by file in file-list
order. -/
def heapPairs (K : Nat) (h : List HeapElem) : List (Int × String) :=
  ((List.range K).map (pairsAt h)).flatten

/-- The well-formedness invariant of a `MergeFileIterator` heap. -/
structure MHeapInv (h : List HeapElem) : Prop where
  sorted : h.Pairwise heapLT
  idxNe : h.Pairwise (fun a b => a.idx ≠ b.idx)
  ascend : ∀ e ∈ h, (e.key :: e.rest.map Prod.fst).Chain' (· < ·)

/-- Values lines of well-formed runs split to something non-empty. -/
def linesGood (h : List HeapElem) : Prop :=
  ∀ e ∈ h, splitWS e.line ≠ [] ∧ ∀ p ∈ e.rest, splitWS p.2 ≠ []

theorem heapLT_trans {a b c : HeapElem} (h1 : heapLT a b) (h2 : heapLT b c) : heapLT a c := by
  unfold heapLT at h1 h2 ⊢
  rcases h1 with h1 | h1 <;> rcases h2 with h2 | h2 <;> omega

theorem heapLEb_iff (a b : HeapElem) :
    heapLEb a b = true ↔ a.key < b.key ∨ (a.key = b.key ∧ a.idx ≤ b.idx) := by
  simp [heapLEb]

theorem heapLT_of_not_le {a b : HeapElem} (h : ¬heapLEb a b = true) : heapLT b a := by
  rw [heapLEb_iff] at h
  push_neg at h
  unfold heapLT
  obtain ⟨h1, h2⟩ := h
  by_cases hk : a.key = b.key
  · right
    exact ⟨hk.symm, by have := h2 hk; omega⟩
  · left
    omega

theorem heapLT_of_le_of_ne {a b : HeapElem} (hle : heapLEb a b = true) (hne : a.idx ≠ b.idx) :
    heapLT a b := by
  rw [heapLEb_iff] at hle
  unfold heapLT
  rcases hle with hle | hle
  · exact Or.inl hle
  · right
    exact ⟨hle.1, by have := hle.2; omega⟩

theorem mem_heapPush {e : HeapElem} {h : List HeapElem} {a : HeapElem} :
    a ∈ heapPush e h ↔ a = e ∨ a ∈ h := by
  induction h with
  | nil => simp [heapPush]
  | cons x xs ih =>
    rw [heapPush]
    by_cases hle : heapLEb e x = true
    · rw [if_pos hle]
      simp [List.mem_cons]
    · rw [if_neg hle]
      simp only [List.mem_cons, ih]
      tauto

theorem heapPush_perm (e : HeapElem) (h : List HeapElem) :
    (heapPush e h).Perm (e :: h) := by
  induction h with
  | nil => exact List.Perm.refl _
  | cons x xs ih =>
    rw [heapPush]
    by_cases hle : heapLEb e x = true
    · rw [if_pos hle]
    · rw [if_neg hle]
      exact List.Perm.trans (List.Perm.cons x ih) (List.Perm.swap e x xs)

theorem heapSize_perm {h₁ h₂ : List HeapElem} (h : h₁.Perm h₂) : heapSize h₁ = heapSize h₂ :=
  (h.map elemSize).sum_eq

theorem heapSize_heapPush (e : HeapElem) (h : List HeapElem) :
    heapSize (heapPush e h) = elemSize e + heapSize h := by
  rw [heapSize_perm (heapPush_perm e h)]
  rfl

theorem sorted_heapPush {e : HeapElem} {h : List HeapElem} (hs : h.Pairwise heapLT)
    (hidx : ∀ x ∈ h, x.idx ≠ e.idx) : (heapPush e h).Pairwise heapLT := by
  induction h with
  | nil => simp [heapPush]
  | cons x xs ih =>
    rcases List.pairwise_cons.1 hs with ⟨hx, hxs⟩
    rw [heapPush]
    by_cases hle : heapLEb e x = true
    · rw [if_pos hle]
      refine List.pairwise_cons.2 ⟨?_, hs⟩
      intro b hb
      have hex : heapLT e x := heapLT_of_le_of_ne hle (fun hc => hidx x (by simp) hc.symm)
      rcases List.mem_cons.1 hb with hb | hb
      · rw [hb]; exact hex
      · exact heapLT_trans hex (hx b hb)
    · rw [if_neg hle]
      refine List.pairwise_cons.2 ⟨?_, ih hxs (fun y hy => hidx y (by simp [hy]))⟩
      intro b hb
      rcases mem_heapPush.1 hb with hb | hb
      · rw [hb]; exact heapLT_of_not_le hle
      · exact hx b hb

theorem idxNe_symm : Symmetric (fun a b : HeapElem => a.idx ≠ b.idx) :=
  fun _ _ hab => fun hc => hab hc.symm

theorem idxNe_heapPush {e : HeapElem} {h : List HeapElem}
    (hi : h.Pairwise (fun a b => a.idx ≠ b.idx)) (hfresh : ∀ x ∈ h, x.idx ≠ e.idx) :
    (heapPush e h).Pairwise (fun a b => a.idx ≠ b.idx) := by
  rw [(heapPush_perm e h).pairwise_iff (fun hab => fun hc => hab hc.symm)]
  exact List.pairwise_cons.2 ⟨fun b hb => fun hc => hfresh b hb hc.symm, hi⟩

theorem heapPush_append_far (e : HeapElem) (A B : List HeapElem)
    (hA : ∀ x ∈ A, ¬heapLEb e x = true) :
    heapPush e (A ++ B) = A ++ heapPush e B := by
  induction A with
  | nil => rfl
  | cons x xs ih =>
    rw [List.cons_append, heapPush, if_neg (hA x (by simp)), ih (fun y hy => hA y (by simp [hy]))]
    rfl

theorem dropWhile_head_not {α : Type} (p : α → Bool) :
    ∀ (l : List α) (x : α) (xs : List α), l.dropWhile p = x :: xs → p x = false := by
  intro l
  induction l with
  | nil => intro x xs h; simp [List.dropWhile] at h
  | cons y ys ih =>
    intro x xs h
    rw [List.dropWhile_cons] at h
    by_cases hy : p y = true
    · rw [if_pos hy] at h
      exact ih x xs h
    · rw [if_neg hy] at h
      injection h with h1 _
      rw [← h1]
      simpa using hy

theorem takeWhile_append_of_all {α : Type} (p : α → Bool) (A B : List α)
    (hA : ∀ x ∈ A, p x = true) :
    (A ++ B).takeWhile p = A ++ B.takeWhile p := by
  induction A with
  | nil => rfl
  | cons x xs ih =>
    rw [List.cons_append, List.takeWhile_cons, if_pos (hA x (by simp)),
      ih (fun y hy => hA y (by simp [hy]))]
    rfl

theorem dropWhile_append_of_all {α : Type} (p : α → Bool) (A B : List α)
    (hA : ∀ x ∈ A, p x = true) :
    (A ++ B).dropWhile p = B.dropWhile p := by
  induction A with
  | nil => rfl
  | cons x xs ih =>
    rw [List.cons_append, List.dropWhile_cons, if_pos (hA x (by simp)),
      ih (fun y hy => hA y (by simp [hy]))]

theorem heapSize_cons (e : HeapElem) (t : List HeapElem) :
    heapSize (e :: t) = elemSize e + heapSize t := rfl

theorem takeWhile_nil_of_head {α : Type} {p : α → Bool} {l : List α}
    (h : ∀ x, l.head? = some x → p x = false) : l.takeWhile p = [] := by
  cases l with
  | nil => rfl
  | cons x xs =>
    have hx := h x rfl
    rw [List.takeWhile_cons, if_neg (by simp [hx])]

theorem dropWhile_self_of_head {α : Type} {p : α → Bool} {l : List α}
    (h : ∀ x, l.head? = some x → p x = false) : l.dropWhile p = l := by
  cases l with
  | nil => rfl
  | cons x xs =>
    have hx := h x rfl
    rw [List.dropWhile_cons, if_neg (by simp [hx])]

theorem heapPush_head_cases (e : HeapElem) (l : List HeapElem) :
    (heapPush e l).head? = some e ∨ (heapPush e l).head? = l.head? := by
  cases l with
  | nil => left; rfl
  | cons x xs =>
    rw [heapPush]
    by_cases hle : heapLEb e x = true
    · left; rw [if_pos hle]; rfl
    · right; rw [if_neg hle]; rfl

/-- What the inner loop of `__next__` does: it consumes exactly the maximal
prefix of heap elements carrying `current_key` (in heap = file-index order),
returns their split values lines concatenated, and the new heap holds the
remaining elements plus the consumed files' successor entries. -/
theorem popKeyF_spec (k : Int) : ∀ (fuel : Nat) (h : List HeapElem),
    heapSize h ≤ fuel →
    h.Pairwise heapLT →
    h.Pairwise (fun a b => a.idx ≠ b.idx) →
    (∀ e ∈ h, k ≤ e.key) →
    (∀ e ∈ h, (e.key :: e.rest.map Prod.fst).Chain' (· < ·)) →
    (popKeyF fuel k h).1
        = ((h.takeWhile (fun e => e.key == k)).map (fun e => splitWS e.line)).flatten
      ∧ (popKeyF fuel k h).2.Perm
          (h.dropWhile (fun e => e.key == k)
            ++ (h.takeWhile (fun e => e.key == k)).filterMap succOf)
      ∧ (popKeyF fuel k h).2.Pairwise heapLT := by
  intro fuel
  induction fuel with
  | zero =>
    intro h hsize hs hi hmin hasc
    have hnil : h = [] := by
      cases h with
      | nil => rfl
      | cons e t =>
        rw [heapSize_cons] at hsize
        unfold elemSize at hsize
        omega
    subst hnil
    exact ⟨rfl, List.Perm.refl _, List.Pairwise.nil⟩
  | succ fuel ih =>
    intro h hsize hs hi hmin hasc
    cases h with
    | nil => exact ⟨rfl, List.Perm.refl _, List.Pairwise.nil⟩
    | cons e t =>
      rcases List.pairwise_cons.1 hs with ⟨hse, hst⟩
      rcases List.pairwise_cons.1 hi with ⟨hie, hit⟩
      by_cases hek : e.key = k
      · -- current element carries the key: it is consumed
        have hpred : ((fun e : HeapElem => e.key == k) e) = true := by simp [hek]
        have htake : (e :: t).takeWhile (fun e => e.key == k)
            = e :: t.takeWhile (fun e => e.key == k) := by
          rw [List.takeWhile_cons, if_pos hpred]
        have hdrop : (e :: t).dropWhile (fun e => e.key == k)
            = t.dropWhile (fun e => e.key == k) := by
          rw [List.dropWhile_cons, if_pos hpred]
        -- facts about the prefix and the remainder of `t`
        have htP : ∀ x ∈ t.takeWhile (fun e => e.key == k), x.key = k := by
          intro x hx
          have := List.mem_takeWhile_imp hx
          simpa using this
        have htR : ∀ x ∈ t.dropWhile (fun e => e.key == k), k < x.key := by
          intro x hx
          have hsub : (t.dropWhile (fun e => e.key == k)).Sublist t :=
            List.dropWhile_sublist _
          have hsorted : (t.dropWhile (fun e => e.key == k)).Pairwise heapLT :=
            hst.sublist hsub
          cases hR : t.dropWhile (fun e => e.key == k) with
          | nil => rw [hR] at hx; simp at hx
          | cons y ys =>
            have hy : y.key ≠ k := by
              have := dropWhile_head_not _ t y ys hR
              simpa using this
            have hymem : y ∈ t := hsub.mem (by rw [hR]; simp)
            have hky : k < y.key :=
              lt_of_le_of_ne (hmin y (by simp [hymem])) (fun hc => hy hc.symm)
            rw [hR] at hx
            rcases List.mem_cons.1 hx with hx | hx
            · rw [hx]; exact hky
            · rw [hR] at hsorted
              rcases List.pairwise_cons.1 hsorted with ⟨hyall, _⟩
              have := hyall x hx
              unfold heapLT at this
              omega
        cases hrest : e.rest with
        | nil =>
          -- EOF on e's file: it is closed, the loop continues on `t`
          have hstep : popKeyF (fuel + 1) k (e :: t)
              = (splitWS e.line ++ (popKeyF fuel k t).1, (popKeyF fuel k t).2) := by
            rw [popKeyF, if_pos hek, hrest]
          have hsize' : heapSize t ≤ fuel := by
            rw [heapSize_cons] at hsize
            unfold elemSize at hsize
            omega
          obtain ⟨ih1, ih2, ih3⟩ := ih t hsize' hst hit
            (fun x hx => hmin x (by simp [hx]))
            (fun x hx => hasc x (by simp [hx]))
          refine ⟨?_, ?_, ?_⟩
          · rw [hstep, htake, List.map_cons, List.flatten_cons, ih1]
          · rw [hstep, htake, hdrop]
            have hsuccE : succOf e = none := by unfold succOf; rw [hrest]
            rw [List.filterMap_cons_none hsuccE]
            exact ih2
          · rw [hstep]
            exact ih3
        | cons q r' =>
          obtain ⟨k', l'⟩ := q
          -- e's file has a further entry: push it back with the same index
          set succ : HeapElem := ⟨k', e.idx, l', r'⟩ with hsucc
          have hkk' : k < k' := by
            have := hasc e (by simp)
            rw [hrest] at this
            rcases List.chain'_cons.1 this with ⟨hlt, _⟩
            simp at hlt
            omega
          have hfresh : ∀ x ∈ t, x.idx ≠ succ.idx := fun x hx => (hie x hx).symm
          have hstep : popKeyF (fuel + 1) k (e :: t)
              = (splitWS e.line ++ (popKeyF fuel k (heapPush succ t)).1,
                 (popKeyF fuel k (heapPush succ t)).2) := by
            rw [popKeyF, if_pos hek, hrest]
          have hsize' : heapSize (heapPush succ t) ≤ fuel := by
            rw [heapSize_heapPush]
            rw [heapSize_cons] at hsize
            unfold elemSize at hsize ⊢
            rw [hrest] at hsize
            simp at hsize ⊢
            omega
          have hsort' : (heapPush succ t).Pairwise heapLT := sorted_heapPush hst hfresh
          have hidx' : (heapPush succ t).Pairwise (fun a b => a.idx ≠ b.idx) :=
            idxNe_heapPush hit hfresh
          have hmin' : ∀ x ∈ heapPush succ t, k ≤ x.key := by
            intro x hx
            rcases mem_heapPush.1 hx with hx | hx
            · rw [hx]; show k ≤ k'; omega
            · exact hmin x (by simp [hx])
          have hasc' : ∀ x ∈ heapPush succ t, (x.key :: x.rest.map Prod.fst).Chain' (· < ·) := by
            intro x hx
            rcases mem_heapPush.1 hx with hx | hx
            · rw [hx]
              have := hasc e (by simp)
              rw [hrest] at this
              simp only [List.map_cons] at this
              exact (List.chain'_cons.1 this).2
            · exact hasc x (by simp [hx])
          obtain ⟨ih1, ih2, ih3⟩ := ih (heapPush succ t) hsize' hsort' hidx' hmin' hasc'
          -- the push lands beyond the key-k prefix of `t`
          have hsplit_t : t = t.takeWhile (fun e => e.key == k)
              ++ t.dropWhile (fun e => e.key == k) :=
            (List.takeWhile_append_dropWhile _ _).symm
          have hfar : ∀ x ∈ t.takeWhile (fun e => e.key == k), ¬heapLEb succ x = true := by
            intro x hx
            rw [heapLEb_iff]
            have hxk := htP x hx
            have hsk : succ.key = k' := rfl
            intro hc
            rcases hc with hc | hc
            · omega
            · rcases hc with ⟨hc, _⟩
              omega
          have hpush_eq : heapPush succ t
              = t.takeWhile (fun e => e.key == k)
                ++ heapPush succ (t.dropWhile (fun e => e.key == k)) := by
            conv_lhs => rw [hsplit_t]
            exact heapPush_append_far _ _ _ hfar
          have hheadR : ∀ x, (heapPush succ (t.dropWhile (fun e => e.key == k))).head? = some x
              → ((fun e : HeapElem => e.key == k) x) = false := by
            intro x hx
            rcases heapPush_head_cases succ (t.dropWhile (fun e => e.key == k)) with hc | hc
            · rw [hc] at hx
              injection hx with hx
              rw [← hx]
              simp only [hsucc]
              simp
              omega
            · rw [hc] at hx
              cases hR : t.dropWhile (fun e => e.key == k) with
              | nil => rw [hR] at hx; simp at hx
              | cons y ys =>
                rw [hR] at hx
                injection hx with hx
                rw [← hx]
                exact dropWhile_head_not _ t y ys hR
          have htake' : (heapPush succ t).takeWhile (fun e => e.key == k)
              = t.takeWhile (fun e => e.key == k) := by
            rw [hpush_eq, takeWhile_append_of_all _ _ _
              (fun x hx => by simp [htP x hx]),
              takeWhile_nil_of_head hheadR, List.append_nil]
          have hdrop' : (heapPush succ t).dropWhile (fun e => e.key == k)
              = heapPush succ (t.dropWhile (fun e => e.key == k)) := by
            rw [hpush_eq, dropWhile_append_of_all _ _ _
              (fun x hx => by simp [htP x hx]),
              dropWhile_self_of_head hheadR]
          refine ⟨?_, ?_, ?_⟩
          · rw [hstep, htake, List.map_cons, List.flatten_cons, ih1, htake']
          · rw [hstep, htake, hdrop]
            have hsuccE : succOf e = some succ := by unfold succOf; rw [hrest]
            rw [List.filterMap_cons_some hsuccE]
            rw [htake', hdrop'] at ih2
            refine List.Perm.trans ih2 ?_
            refine List.Perm.trans ((heapPush_perm succ
              (t.dropWhile (fun e => e.key == k))).append_right _) ?_
            rw [List.cons_append]
            exact List.perm_middle.symm
          · rw [hstep]
            exact ih3
      · -- heap top no longer carries the key: the loop stops
        have hpred : ((fun e : HeapElem => e.key == k) e) = false := by simp [hek]
        have hstep : popKeyF (fuel + 1) k (e :: t) = ([], e :: t) := by
          rw [popKeyF, if_neg hek]
        refine ⟨?_, ?_, ?_⟩
        · rw [hstep, List.takeWhile_cons, if_neg (by simp [hpred])]
          rfl
        · rw [hstep, List.dropWhile_cons, if_neg (by simp [hpred]),
            List.takeWhile_cons, if_neg (by simp [hpred])]
          rw [List.filterMap_nil, List.append_nil]
        · rw [hstep]
          exact hs

theorem heapFind_eq_some_iff {h : List HeapElem}
    (hi : h.Pairwise (fun a b => a.idx ≠ b.idx)) (i : Nat) (e : HeapElem) :
    heapFind h i = some e ↔ e ∈ h ∧ e.idx = i := by
  constructor
  · intro hf
    refine ⟨List.mem_of_find?_eq_some hf, ?_⟩
    have := List.find?_some hf
    simpa using this
  · rintro ⟨hmem, hidx⟩
    induction h with
    | nil => simp at hmem
    | cons x t ih =>
      rcases List.pairwise_cons.1 hi with ⟨hx, ht⟩
      rcases List.mem_cons.1 hmem with heq | hmem'
      · subst heq
        unfold heapFind
        have hb : (e.idx == i) = true := by simp [hidx]
        rw [List.find?_cons, hb]
      · have hxi : x.idx ≠ i := by
          rw [← hidx]
          exact hx e hmem'
        unfold heapFind
        have hb : (x.idx == i) = false := by simp [hxi]
        rw [List.find?_cons, hb]
        exact ih ht hmem'

theorem heapFind_eq_none_iff (h : List HeapElem) (i : Nat) :
    heapFind h i = none ↔ ∀ e ∈ h, e.idx ≠ i := by
  unfold heapFind
  rw [List.find?_eq_none]
  constructor
  · intro hf e he
    have := hf e he
    simpa using this
  · intro hf e he
    simp [hf e he]

theorem heapFind_perm {h₁ h₂ : List HeapElem} (hp : h₁.Perm h₂)
    (hi : h₁.Pairwise (fun a b => a.idx ≠ b.idx)) (i : Nat) :
    heapFind h₁ i = heapFind h₂ i := by
  have hi₂ : h₂.Pairwise (fun a b => a.idx ≠ b.idx) :=
    (hp.pairwise_iff (fun hab => fun hc => hab hc.symm)).1 hi
  cases hf : heapFind h₁ i with
  | some e =>
    rcases (heapFind_eq_some_iff hi i e).1 hf with ⟨hmem, hidx⟩
    exact ((heapFind_eq_some_iff hi₂ i e).2 ⟨hp.mem_iff.1 hmem, hidx⟩).symm
  | none =>
    have := (heapFind_eq_none_iff h₁ i).1 hf
    exact ((heapFind_eq_none_iff h₂ i).2 (fun e he => this e (hp.mem_iff.2 he))).symm

theorem mem_fst_flattenGroups {gs : List (Int × List String)} {p : Int × String}
    (hp : p ∈ flattenGroups gs) : p.1 ∈ gs.map Prod.fst := by
  unfold flattenGroups at hp
  rw [List.mem_flatten] at hp
  obtain ⟨L, hL, hpL⟩ := hp
  rw [List.mem_map] at hL
  obtain ⟨g, hg, rfl⟩ := hL
  rw [List.mem_map] at hpL
  obtain ⟨v, _, rfl⟩ := hpL
  exact List.mem_map.2 ⟨g, hg, rfl⟩

theorem gather_flattenGroups_zero {gs : List (Int × List String)} {k : Int}
    (h : ∀ g ∈ gs, g.1 ≠ k) : gather (flattenGroups gs) k = [] := by
  apply gather_eq_nil_of_not_mem
  intro hc
  rw [List.mem_map] at hc
  obtain ⟨p, hp, rfl⟩ := hc
  have := mem_fst_flattenGroups hp
  rw [List.mem_map] at this
  obtain ⟨g, hg, hfst⟩ := this
  exact h g hg hfst

theorem map_fst_parseFile (f : RunFile) : (parseFile f).map Prod.fst = f.map Prod.fst := by
  unfold parseFile
  rw [List.map_map]
  rfl

theorem flattenGroups_cons (g : Int × List String) (gs : List (Int × List String)) :
    flattenGroups (g :: gs) = g.2.map (fun v => (g.1, v)) ++ flattenGroups gs := rfl

theorem gather_elemPairs_self (e : HeapElem)
    (hasc : (e.key :: e.rest.map Prod.fst).Chain' (· < ·)) :
    gather (elemPairs e) e.key = splitWS e.line := by
  unfold elemPairs elemEntries
  rw [flattenGroups_cons, gather_append, gather_pairMap, if_pos rfl]
  rw [gather_flattenGroups_zero, List.append_nil]
  intro g hg
  have : g.1 ∈ (parseFile e.rest).map Prod.fst := List.mem_map.2 ⟨g, hg, rfl⟩
  rw [map_fst_parseFile] at this
  have hchain := List.chain'_iff_pairwise.1 hasc
  rcases List.pairwise_cons.1 hchain with ⟨hgt, _⟩
  have := hgt g.1 this
  omega

theorem gather_elemPairs_of_lt (e : HeapElem) (k : Int)
    (hgt : ∀ j ∈ e.key :: e.rest.map Prod.fst, k < j) :
    gather (elemPairs e) k = [] := by
  apply gather_flattenGroups_zero
  intro g hg
  have : g.1 ∈ (elemEntries e).map Prod.fst := List.mem_map.2 ⟨g, hg, rfl⟩
  unfold elemEntries at this
  rw [List.map_cons, map_fst_parseFile] at this
  have := hgt g.1 this
  omega

theorem filter_elemPairs_of_lt (e : HeapElem) (k : Int)
    (hgt : ∀ j ∈ e.key :: e.rest.map Prod.fst, k < j) :
    (elemPairs e).filter (fun p => !(p.1 == k)) = elemPairs e := by
  apply List.filter_eq_self.2
  intro p hp
  have := mem_fst_flattenGroups hp
  unfold elemEntries at this
  rw [List.map_cons, map_fst_parseFile] at this
  have := hgt p.1 this
  simp
  omega

theorem succOf_cases (e : HeapElem) :
    (succOf e = none ∧ e.rest = []) ∨
      ∃ k' l' r', e.rest = (k', l') :: r' ∧ succOf e = some ⟨k', e.idx, l', r'⟩ := by
  unfold succOf
  cases hr : e.rest with
  | nil => exact Or.inl ⟨rfl, rfl⟩
  | cons q r' =>
    obtain ⟨k', l'⟩ := q
    exact Or.inr ⟨k', l', r', rfl, rfl⟩

theorem succOf_idx {e s : HeapElem} (h : succOf e = some s) : s.idx = e.idx := by
  rcases succOf_cases e with ⟨hn, _⟩ | ⟨k', l', r', _, hs⟩
  · rw [hn] at h; exact absurd h (by simp)
  · rw [hs] at h; injection h with h; rw [← h]

theorem elemEntries_succOf {e s : HeapElem} (h : succOf e = some s) :
    elemEntries s = parseFile e.rest := by
  rcases succOf_cases e with ⟨hn, _⟩ | ⟨k', l', r', hr, hs⟩
  · rw [hn] at h; exact absurd h (by simp)
  · rw [hs] at h
    injection h with h
    rw [← h, hr]
    rfl

theorem filter_elemPairs_head (e : HeapElem)
    (hasc : (e.key :: e.rest.map Prod.fst).Chain' (· < ·)) :
    (elemPairs e).filter (fun p => !(p.1 == e.key))
      = match succOf e with
        | none => []
        | some s => elemPairs s := by
  unfold elemPairs elemEntries
  rw [flattenGroups_cons, List.filter_append]
  have h1 : (((splitWS e.line).map (fun v => (e.key, v))).filter
      (fun p => !(p.1 == e.key))) = [] := by
    apply List.filter_eq_nil_iff.2
    intro p hp
    rw [List.mem_map] at hp
    obtain ⟨v, _, rfl⟩ := hp
    simp
  have hchain := List.chain'_iff_pairwise.1 hasc
  rcases List.pairwise_cons.1 hchain with ⟨hgt, _⟩
  have h2 : (flattenGroups (parseFile e.rest)).filter (fun p => !(p.1 == e.key))
      = flattenGroups (parseFile e.rest) := by
    apply List.filter_eq_self.2
    intro p hp
    have := mem_fst_flattenGroups hp
    rw [map_fst_parseFile] at this
    have := hgt p.1 this
    simp
    omega
  rw [h1, h2, List.nil_append]
  rcases succOf_cases e with ⟨hn, hr⟩ | ⟨k', l', r', hr, hs⟩
  · rw [hn, hr]
    rfl
  · rw [hs]
    show flattenGroups (parseFile e.rest) = flattenGroups (elemEntries ⟨k', e.idx, l', r'⟩)
    rw [elemEntries_succOf hs]

theorem filter_flatten {α : Type} (p : α → Bool) (L : List (List α)) :
    L.flatten.filter p = (L.map (List.filter p)).flatten := by
  induction L with
  | nil => rfl
  | cons x xs ih => simp [List.filter_append, ih]

/-- Concatenating a per-index family over an index range equals concatenating
its support, provided the support indices are strictly ascending. -/
theorem flatten_range_support {β : Type} (g : Nat → List β) :
    ∀ (n a : Nat) (P : List (Nat × List β)),
      (P.map Prod.fst).Pairwise (· < ·) →
      (∀ p ∈ P, a ≤ p.1 ∧ p.1 < a + n) →
      (∀ i, a ≤ i → i < a + n →
        (∀ vs, (i, vs) ∈ P → g i = vs) ∧ ((∀ vs, (i, vs) ∉ P) → g i = [])) →
      ((List.range' a n).map g).flatten = (P.map Prod.snd).flatten := by
  intro n
  induction n with
  | zero =>
    intro a P hsort hbound hg
    have hP : P = [] := by
      cases P with
      | nil => rfl
      | cons p ps =>
        have := hbound p (by simp)
        omega
    rw [hP]
    rfl
  | succ n ih =>
    intro a P hsort hbound hg
    rw [List.range'_succ, List.map_cons, List.flatten_cons]
    cases P with
    | nil =>
      have hga : g a = [] := ((hg a le_rfl (by omega)).2 (fun vs hvs => by simp at hvs))
      rw [hga, List.nil_append]
      refine ih (a + 1) [] (by simp) (by simp) ?_
      intro i hi1 hi2
      refine ⟨fun vs hvs => by simp at hvs, fun _ => ?_⟩
      exact ((hg i (by omega) (by omega)).2 (fun vs hvs => by simp at hvs))
    | cons p P' =>
      rcases List.pairwise_cons.1 hsort with ⟨hp, hP'⟩
      have hpb := hbound p (by simp)
      by_cases hpa : p.1 = a
      · have hga : g a = p.2 := (hg a le_rfl (by omega)).1 p.2 (by
          rw [← hpa]
          exact List.mem_cons_self _ _)
        rw [hga, List.map_cons, List.flatten_cons]
        congr 1
        refine ih (a + 1) P' hP' ?_ ?_
        · intro q hq
          have hq1 : p.1 < q.1 := hp q.1 (List.mem_map.2 ⟨q, hq, rfl⟩)
          have := hbound q (by simp [hq])
          omega
        · intro i hi1 hi2
          constructor
          · intro vs hvs
            exact (hg i (by omega) (by omega)).1 vs (by simp [hvs])
          · intro hnv
            refine (hg i (by omega) (by omega)).2 ?_
            intro vs hvs
            rcases List.mem_cons.1 hvs with heq | hmem
            · have : i = p.1 := congrArg Prod.fst heq
              omega
            · exact hnv vs hmem
      · have hpgt : a < p.1 := by omega
        have hga : g a = [] := by
          refine (hg a le_rfl (by omega)).2 ?_
          intro vs hvs
          rcases List.mem_cons.1 hvs with heq | hmem
          · have : a = p.1 := congrArg Prod.fst heq
            omega
          · have := hp a (List.mem_map.2 ⟨(a, vs), hmem, rfl⟩)
            · omega
        rw [hga, List.nil_append]
        refine ih (a + 1) (p :: P') hsort ?_ ?_
        · intro q hq
          rcases List.mem_cons.1 hq with heq | hmem
          · subst heq
            omega
          · have hq1 : p.1 < q.1 := hp q.1 (List.mem_map.2 ⟨q, hmem, rfl⟩)
            have := hbound q (by simp [hmem])
            omega
        · intro i hi1 hi2
          exact hg i (by omega) (by omega)

theorem heapSize_append (A B : List HeapElem) :
    heapSize (A ++ B) = heapSize A + heapSize B := by
  unfold heapSize
  rw [List.map_append, List.sum_append]

theorem dropWhile_key_gt {h : List HeapElem} {k : Int} (hs : h.Pairwise heapLT)
    (hmin : ∀ x ∈ h, k ≤ x.key) :
    ∀ x ∈ h.dropWhile (fun e => e.key == k), k < x.key := by
  intro x hx
  have hsub : (h.dropWhile (fun e => e.key == k)).Sublist h := List.dropWhile_sublist _
  have hsorted : (h.dropWhile (fun e => e.key == k)).Pairwise heapLT := hs.sublist hsub
  cases hR : h.dropWhile (fun e => e.key == k) with
  | nil => rw [hR] at hx; simp at hx
  | cons y ys =>
    have hy : y.key ≠ k := by
      have := dropWhile_head_not _ h y ys hR
      simpa using this
    have hymem : y ∈ h := hsub.mem (by rw [hR]; simp)
    have hky : k < y.key := lt_of_le_of_ne (hmin y hymem) (fun hc => hy hc.symm)
    rw [hR] at hx
    rcases List.mem_cons.1 hx with hx | hx
    · rw [hx]; exact hky
    · rw [hR] at hsorted
      rcases List.pairwise_cons.1 hsorted with ⟨hyall, _⟩
      have := hyall x hx
      unfold heapLT at this
      omega

theorem entryKeys_ge {x : HeapElem} {j : Int}
    (hasc : (x.key :: x.rest.map Prod.fst).Chain' (· < ·))
    (hj : j ∈ x.key :: x.rest.map Prod.fst) : x.key ≤ j := by
  have hp := List.chain'_iff_pairwise.1 hasc
  rcases List.pairwise_cons.1 hp with ⟨hgt, _⟩
  rcases List.mem_cons.1 hj with hj | hj
  · omega
  · have := hgt j hj
    omega

theorem pairwise_idxNe_filterMap_succOf {P : List HeapElem}
    (h : P.Pairwise (fun a b => a.idx ≠ b.idx)) :
    (P.filterMap succOf).Pairwise (fun a b => a.idx ≠ b.idx) := by
  induction P with
  | nil => simp
  | cons x P' ih =>
    rcases List.pairwise_cons.1 h with ⟨hx, hP'⟩
    rw [List.filterMap_cons]
    cases hs : succOf x with
    | none => exact ih hP'
    | some s =>
      refine List.pairwise_cons.2 ⟨?_, ih hP'⟩
      intro b hb
      rw [List.mem_filterMap] at hb
      obtain ⟨y, hy, hyb⟩ := hb
      rw [succOf_idx hs, succOf_idx hyb]
      exact hx y hy

theorem heapSize_filterMap_succOf (P : List HeapElem) :
    heapSize (P.filterMap succOf) + P.length ≤ heapSize P := by
  induction P with
  | nil => simp [heapSize]
  | cons x P' ih =>
    rw [List.filterMap_cons, heapSize_cons]
    rcases succOf_cases x with ⟨hn, hr⟩ | ⟨k', l', r', hr, hs⟩
    · rw [hn]
      unfold elemSize
      simp only [List.length_cons]
      omega
    · rw [hs, heapSize_cons]
      unfold elemSize
      rw [hr]
      simp only [List.length_cons]
      omega

theorem mem_heapPairs_iff {K : Nat} {h : List HeapElem} {p : Int × String} :
    p ∈ heapPairs K h ↔ ∃ i, i < K ∧ p ∈ pairsAt h i := by
  unfold heapPairs
  rw [List.mem_flatten]
  constructor
  · rintro ⟨L, hL, hpL⟩
    rw [List.mem_map] at hL
    obtain ⟨i, hi, rfl⟩ := hL
    exact ⟨i, List.mem_range.1 hi, hpL⟩
  · rintro ⟨i, hi, hp⟩
    exact ⟨pairsAt h i, List.mem_map.2 ⟨i, List.mem_range.2 hi, rfl⟩, hp⟩

theorem succOf_ascend {y s : HeapElem} (h : succOf y = some s)
    (hasc : (y.key :: y.rest.map Prod.fst).Chain' (· < ·)) :
    (s.key :: s.rest.map Prod.fst).Chain' (· < ·) := by
  rcases succOf_cases y with ⟨hn, _⟩ | ⟨k', l', r', hr, hs⟩
  · rw [hn] at h; exact absurd h (by simp)
  · rw [hs] at h
    injection h with h
    rw [← h]
    rw [hr] at hasc
    simp only [List.map_cons] at hasc
    exact (List.chain'_cons.1 hasc).2

theorem succOf_lines {y s : HeapElem} (h : succOf y = some s)
    (hl : splitWS y.line ≠ [] ∧ ∀ p ∈ y.rest, splitWS p.2 ≠ []) :
    splitWS s.line ≠ [] ∧ ∀ p ∈ s.rest, splitWS p.2 ≠ [] := by
  rcases succOf_cases y with ⟨hn, _⟩ | ⟨k', l', r', hr, hs⟩
  · rw [hn] at h; exact absurd h (by simp)
  · rw [hs] at h
    injection h with h
    rw [← h]
    constructor
    · exact hl.2 (k', l') (by rw [hr]; simp)
    · intro p hp
      exact hl.2 p (by rw [hr]; simp [hp])

/-- Effect of one `__next__` call on the per-file remaining pairs: every file
loses exactly its pairs carrying the current key. -/
theorem pairsAt_step {h : List HeapElem} {k : Int}
    (hs : h.Pairwise heapLT)
    (hi : h.Pairwise (fun a b => a.idx ≠ b.idx))
    (hmin : ∀ x ∈ h, k ≤ x.key)
    (hasc : ∀ x ∈ h, (x.key :: x.rest.map Prod.fst).Chain' (· < ·))
    {h' : List HeapElem}
    (hperm : h'.Perm (h.dropWhile (fun e => e.key == k)
        ++ (h.takeWhile (fun e => e.key == k)).filterMap succOf)) :
    (∀ i, pairsAt h' i = (pairsAt h i).filter (fun p => !(p.1 == k)))
      ∧ h'.Pairwise (fun a b => a.idx ≠ b.idx) := by
  set P := h.takeWhile (fun e => e.key == k) with hP
  set D := h.dropWhile (fun e => e.key == k) with hD
  have hsplit : h = P ++ D := (List.takeWhile_append_dropWhile _ _).symm
  have hPkeys : ∀ x ∈ P, x.key = k := fun x hx => by
    have := List.mem_takeWhile_imp hx
    simpa using this
  have hDkeys : ∀ x ∈ D, k < x.key := dropWhile_key_gt hs hmin
  have hiPD : (P ++ D).Pairwise (fun a b => a.idx ≠ b.idx) := hsplit ▸ hi
  rcases List.pairwise_append.1 hiPD with ⟨hiP, hiD, hcross⟩
  have hS := pairwise_idxNe_filterMap_succOf hiP
  have hDS : (D ++ P.filterMap succOf).Pairwise (fun a b => a.idx ≠ b.idx) := by
    refine List.pairwise_append.2 ⟨hiD, hS, ?_⟩
    intro a ha b hb
    rw [List.mem_filterMap] at hb
    obtain ⟨y, hy, hyb⟩ := hb
    rw [succOf_idx hyb]
    exact fun hc => (hcross y hy a ha) hc.symm
  have hi' : h'.Pairwise (fun a b => a.idx ≠ b.idx) :=
    (hperm.pairwise_iff (fun hab => fun hc => hab hc.symm)).2 hDS
  refine ⟨?_, hi'⟩
  intro i
  have hfind : heapFind h' i = heapFind (D ++ P.filterMap succOf) i :=
    heapFind_perm hperm hi' i
  unfold pairsAt
  rw [hfind]
  cases hf : heapFind h i with
  | none =>
    have hnone := (heapFind_eq_none_iff h i).1 hf
    have hres : heapFind (D ++ P.filterMap succOf) i = none := by
      rw [heapFind_eq_none_iff]
      intro x hx
      rcases List.mem_append.1 hx with hx | hx
      · exact hnone x (by rw [hsplit]; exact List.mem_append.2 (Or.inr hx))
      · rw [List.mem_filterMap] at hx
        obtain ⟨y, hy, hyx⟩ := hx
        rw [succOf_idx hyx]
        exact hnone y (by rw [hsplit]; exact List.mem_append.2 (Or.inl hy))
    rw [hres]
    rfl
  | some x =>
    rcases (heapFind_eq_some_iff hi i x).1 hf with ⟨hxmem, hxidx⟩
    have hxPD : x ∈ P ++ D := by rw [← hsplit]; exact hxmem
    rcases List.mem_append.1 hxPD with hxP | hxD
    · have hxkey : x.key = k := hPkeys x hxP
      cases hsx : succOf x with
      | some s =>
        have hsmem : s ∈ P.filterMap succOf := List.mem_filterMap.2 ⟨x, hxP, hsx⟩
        have hres : heapFind (D ++ P.filterMap succOf) i = some s := by
          rw [heapFind_eq_some_iff hDS]
          exact ⟨List.mem_append.2 (Or.inr hsmem), by rw [succOf_idx hsx, hxidx]⟩
        rw [hres]
        have hfe := filter_elemPairs_head x (hasc x hxmem)
        rw [hsx] at hfe
        rw [← hxkey]
        exact hfe.symm
      | none =>
        have hres : heapFind (D ++ P.filterMap succOf) i = none := by
          rw [heapFind_eq_none_iff]
          intro z hz
          rcases List.mem_append.1 hz with hz | hz
          · exact fun hc => (hcross x hxP z hz) (by rw [hxidx, ← hc])
          · rw [List.mem_filterMap] at hz
            obtain ⟨y, hy, hyz⟩ := hz
            rw [succOf_idx hyz]
            intro hc
            by_cases hyx : y = x
            · subst hyx
              rw [hsx] at hyz
              exact absurd hyz (by simp)
            · have hne := List.Pairwise.forall
                (fun (a b : HeapElem) (hab : a.idx ≠ b.idx) => hab.symm) hiP hy hxP hyx
              exact hne (by rw [hc, hxidx])
        rw [hres]
        have hfe := filter_elemPairs_head x (hasc x hxmem)
        rw [hsx] at hfe
        rw [← hxkey]
        exact hfe.symm
    · have hres : heapFind (D ++ P.filterMap succOf) i = some x := by
        rw [heapFind_eq_some_iff hDS]
        exact ⟨List.mem_append.2 (Or.inl hxD), hxidx⟩
      rw [hres]
      refine (filter_elemPairs_of_lt x k ?_).symm
      intro j hj
      have h1 : k < x.key := hDkeys x hxD
      have h2 : x.key ≤ j := entryKeys_ge (hasc x hxmem) hj
      omega

/-- The values emitted for the current key are exactly the key's gather over
the heap's remaining pairs (file-index order). -/
theorem gather_heapPairs_head {K : Nat} {h : List HeapElem} {k : Int}
    (hs : h.Pairwise heapLT)
    (hi : h.Pairwise (fun a b => a.idx ≠ b.idx))
    (hmin : ∀ x ∈ h, k ≤ x.key)
    (hasc : ∀ x ∈ h, (x.key :: x.rest.map Prod.fst).Chain' (· < ·))
    (hK : ∀ x ∈ h, x.idx < K) :
    gather (heapPairs K h) k
      = ((h.takeWhile (fun e => e.key == k)).map (fun e => splitWS e.line)).flatten := by
  set P := h.takeWhile (fun e => e.key == k) with hPdef
  have hPkeys : ∀ x ∈ P, x.key = k := fun x hx => by
    have := List.mem_takeWhile_imp hx
    simpa using this
  have hPsub : P.Sublist h := List.takeWhile_sublist _
  have hgf : gather (heapPairs K h) k
      = ((List.range K).map (fun i => gather (pairsAt h i) k)).flatten := by
    unfold heapPairs
    rw [gather_flatten, List.map_map]
    rfl
  rw [hgf, List.range_eq_range']
  have hmain := flatten_range_support (fun i => gather (pairsAt h i) k) K 0
      (P.map (fun x => (x.idx, splitWS x.line))) ?_ ?_ ?_
  · rw [hmain, List.map_map]
    rfl
  · rw [List.map_map]
    have hPlt : P.Pairwise (fun a b => a.idx < b.idx) := by
      refine (hs.sublist hPsub).imp_of_mem ?_
      intro a b ha hb hab
      have hak := hPkeys a ha
      have hbk := hPkeys b hb
      unfold heapLT at hab
      omega
    exact (List.pairwise_map).2 (hPlt.imp (fun hab => hab))
  · intro p hp
    rw [List.mem_map] at hp
    obtain ⟨x, hx, rfl⟩ := hp
    exact ⟨Nat.zero_le _, by simpa using hK x (hPsub.subset hx)⟩
  · intro i _ hiK
    constructor
    · intro vs hvs
      rw [List.mem_map] at hvs
      obtain ⟨x, hx, hxe⟩ := hvs
      have hxi : x.idx = i := congrArg Prod.fst hxe
      have hxl : splitWS x.line = vs := congrArg Prod.snd hxe
      have hfind : heapFind h i = some x :=
        (heapFind_eq_some_iff hi i x).2 ⟨hPsub.subset hx, hxi⟩
      show gather (pairsAt h i) k = vs
      unfold pairsAt
      rw [hfind, ← hxl, ← hPkeys x hx]
      exact gather_elemPairs_self x (hasc x (hPsub.subset hx))
    · intro hnv
      show gather (pairsAt h i) k = []
      unfold pairsAt
      cases hfi : heapFind h i with
      | none => rfl
      | some x =>
        rcases (heapFind_eq_some_iff hi i x).1 hfi with ⟨hxmem, hxidx⟩
        have hxPD : x ∈ P ++ h.dropWhile (fun e => e.key == k) := by
          rw [hPdef, List.takeWhile_append_dropWhile]
          exact hxmem
        rcases List.mem_append.1 hxPD with hxP | hxD
        · exact absurd (List.mem_map.2 ⟨x, hxP, by rw [hxidx]⟩)
            (hnv (splitWS x.line))
        · refine gather_elemPairs_of_lt x k ?_
          intro j hj
          have h1 := dropWhile_key_gt hs hmin x hxD
          have h2 := entryKeys_ge (hasc x hxmem) hj
          omega

theorem heapPairs_nil (K : Nat) : heapPairs K [] = [] := by
  unfold heapPairs
  have hnil : ∀ i, pairsAt ([] : List HeapElem) i = [] := fun i => rfl
  rw [List.map_congr_left (fun i _ => hnil i)]
  simp

/-- Draining a well-formed merge heap produces exactly the reference grouping
of the pairs it holds. -/
theorem mergeDrainF_spec (K : Nat) : ∀ (fuel : Nat) (h : List HeapElem),
    heapSize h ≤ fuel →
    MHeapInv h →
    (∀ e ∈ h, e.idx < K) →
    linesGood h →
    mergeDrainF fuel h = refGroupBy (heapPairs K h) := by
  intro fuel
  induction fuel with
  | zero =>
    intro h hsize hinv hK hlines
    have hnil : h = [] := by
      cases h with
      | nil => rfl
      | cons e t =>
        rw [heapSize_cons] at hsize
        unfold elemSize at hsize
        omega
    subst hnil
    rw [heapPairs_nil]
    rfl
  | succ fuel ih =>
    intro h hsize hinv hK hlines
    cases h with
    | nil =>
      rw [heapPairs_nil]
      rfl
    | cons e t =>
      have hmin : ∀ x ∈ e :: t, e.key ≤ x.key := by
        intro x hx
        rcases List.mem_cons.1 hx with hx | hx
        · rw [hx]
        · have := (List.pairwise_cons.1 hinv.sorted).1 x hx
          unfold heapLT at this
          omega
      obtain ⟨hv, hperm, hsort'⟩ := popKeyF_spec e.key (heapSize (e :: t)) (e :: t)
        le_rfl hinv.sorted hinv.idxNe hmin hinv.ascend
      set res := popKeyF (heapSize (e :: t)) e.key (e :: t) with hresdef
      set P := (e :: t).takeWhile (fun x => x.key == e.key) with hPdef
      set D := (e :: t).dropWhile (fun x => x.key == e.key) with hDdef
      have hstep : mergeDrainF (fuel + 1) (e :: t) = (e.key, res.1) :: mergeDrainF fuel res.2 := by
        have hn : mergeNext (e :: t) = some ((e.key, res.1), res.2) := rfl
        show (match mergeNext (e :: t) with
          | none => []
          | some (g, h') => g :: mergeDrainF fuel h') = _
        rw [hn]
      obtain ⟨hpt, hi'⟩ := pairsAt_step hinv.sorted hinv.idxNe hmin hinv.ascend hperm
      have hhp : heapPairs K res.2
          = (heapPairs K (e :: t)).filter (fun p => !(p.1 == e.key)) := by
        unfold heapPairs
        rw [filter_flatten, List.map_map]
        exact congrArg List.flatten (List.map_congr_left (fun i _ => hpt i))
      have hgv : gather (heapPairs K (e :: t)) e.key = res.1 := by
        rw [gather_heapPairs_head hinv.sorted hinv.idxNe hmin hinv.ascend hK, hv]
      have hkmem : e.key ∈ keysOf (heapPairs K (e :: t)) := by
        rw [mem_keysOf, List.mem_map]
        have hfe : heapFind (e :: t) e.idx = some e :=
          (heapFind_eq_some_iff hinv.idxNe _ e).2 ⟨by simp, rfl⟩
        have hlinee : splitWS e.line ≠ [] := (hlines e (by simp)).1
        obtain ⟨v, hvmem⟩ := List.exists_mem_of_ne_nil _ hlinee
        refine ⟨(e.key, v), ?_, rfl⟩
        rw [mem_heapPairs_iff]
        refine ⟨e.idx, hK e (by simp), ?_⟩
        show (e.key, v) ∈ pairsAt (e :: t) e.idx
        unfold pairsAt
        rw [hfe]
        show (e.key, v) ∈ elemPairs e
        unfold elemPairs elemEntries
        rw [flattenGroups_cons]
        exact List.mem_append.2 (Or.inl (List.mem_map.2 ⟨v, hvmem, rfl⟩))
      have hkmin : ∀ j ∈ keysOf (heapPairs K (e :: t)), e.key ≤ j := by
        intro j hj
        rw [mem_keysOf, List.mem_map] at hj
        obtain ⟨p, hp, rfl⟩ := hj
        rw [mem_heapPairs_iff] at hp
        obtain ⟨i, hiK, hpi⟩ := hp
        have hpi' : p ∈ pairsAt (e :: t) i := hpi
        unfold pairsAt at hpi'
        cases hfi : heapFind (e :: t) i with
        | none => rw [hfi] at hpi'; simp at hpi'
        | some x =>
          rw [hfi] at hpi'
          rcases (heapFind_eq_some_iff hinv.idxNe i x).1 hfi with ⟨hxmem, _⟩
          have h1 := mem_fst_flattenGroups hpi'
          have h2 : p.1 ∈ x.key :: x.rest.map Prod.fst := by
            unfold elemEntries at h1
            rw [List.map_cons, map_fst_parseFile] at h1
            exact h1
          have h3 := entryKeys_ge (hinv.ascend x hxmem) h2
          have h4 := hmin x hxmem
          omega
      have hpeel := refGroupBy_peel (heapPairs K (e :: t)) e.key hkmem hkmin
      -- well-formedness of the new heap
      have hmem' : ∀ x ∈ res.2, x ∈ (e :: t) ∨ ∃ y ∈ (e :: t), succOf y = some x := by
        intro x hx
        have hx' := hperm.mem_iff.1 hx
        rcases List.mem_append.1 hx' with hxd | hxs
        · exact Or.inl ((List.dropWhile_sublist _).subset hxd)
        · rw [List.mem_filterMap] at hxs
          obtain ⟨y, hy, hyx⟩ := hxs
          exact Or.inr ⟨y, (List.takeWhile_sublist _).subset hy, hyx⟩
      have hK' : ∀ x ∈ res.2, x.idx < K := by
        intro x hx
        rcases hmem' x hx with hxm | ⟨y, hy, hyx⟩
        · exact hK x hxm
        · rw [succOf_idx hyx]; exact hK y hy
      have hasc' : ∀ x ∈ res.2, (x.key :: x.rest.map Prod.fst).Chain' (· < ·) := by
        intro x hx
        rcases hmem' x hx with hxm | ⟨y, hy, hyx⟩
        · exact hinv.ascend x hxm
        · exact succOf_ascend hyx (hinv.ascend y hy)
      have hlines' : linesGood res.2 := by
        intro x hx
        rcases hmem' x hx with hxm | ⟨y, hy, hyx⟩
        · exact hlines x hxm
        · exact succOf_lines hyx (hlines y hy)
      have hinv' : MHeapInv res.2 := ⟨hsort', hi', hasc'⟩
      have hsizelt : heapSize res.2 ≤ fuel := by
        have h1 : heapSize res.2 = heapSize D + heapSize (P.filterMap succOf) := by
          rw [heapSize_perm hperm, heapSize_append]
        have h2 : heapSize (e :: t) = heapSize P + heapSize D := by
          conv_lhs => rw [show (e :: t) = P ++ D from (List.takeWhile_append_dropWhile _ _).symm]
          rw [heapSize_append]
        have h3 := heapSize_filterMap_succOf P
        have h4 : 0 < P.length := by
          rw [hPdef, List.takeWhile_cons, if_pos (by simp)]
          simp
        omega
      rw [hstep, hpeel]
      congr 1
      · rw [hgv]
      · rw [ih res.2 hsizelt hinv' hK' hlines', hhp]

/-- The elements the constructor pushes, for files indexed from `i0`
(well-defined when every file is non-empty). -/
def indexedElems (i0 : Nat) : List RunFile → List HeapElem
  | [] => []
  | f :: fs =>
    match f with
    | [] => indexedElems (i0 + 1) fs
    | (k, l) :: r => ⟨k, i0, l, r⟩ :: indexedElems (i0 + 1) fs

/-- The per-file remaining pairs at construction time, with file indices. -/
def filePairsIndexed (i0 : Nat) : List RunFile → List (Nat × List (Int × String))
  | [] => []
  | f :: fs => (i0, flattenGroups (parseFile f)) :: filePairsIndexed (i0 + 1) fs

theorem mem_indexedElems {i0 : Nat} {files : List RunFile} {e : HeapElem}
    (h : e ∈ indexedElems i0 files) :
    ∃ f ∈ files, ∃ k l r, f = (k, l) :: r ∧ e.key = k ∧ e.line = l ∧ e.rest = r := by
  induction files generalizing i0 with
  | nil => simp [indexedElems] at h
  | cons f fs ih =>
    cases hf : f with
    | nil =>
      rw [hf] at h
      have h' : e ∈ indexedElems (i0 + 1) fs := h
      obtain ⟨g, hg, rest⟩ := ih h'
      exact ⟨g, by simp [hg], rest⟩
    | cons q r =>
      obtain ⟨k, l⟩ := q
      rw [hf] at h
      have h' : e ∈ (⟨k, i0, l, r⟩ : HeapElem) :: indexedElems (i0 + 1) fs := h
      rcases List.mem_cons.1 h' with heq | hmem
      · exact ⟨(k, l) :: r, by simp, k, l, r, rfl, by rw [heq], by rw [heq], by rw [heq]⟩
      · obtain ⟨g, hg, rest⟩ := ih hmem
        exact ⟨g, by simp [hg], rest⟩

theorem indexedElems_idx_bounds {i0 : Nat} {files : List RunFile} {e : HeapElem}
    (h : e ∈ indexedElems i0 files) : i0 ≤ e.idx ∧ e.idx < i0 + files.length := by
  induction files generalizing i0 with
  | nil => simp [indexedElems] at h
  | cons f fs ih =>
    cases hf : f with
    | nil =>
      rw [hf] at h
      have h' : e ∈ indexedElems (i0 + 1) fs := h
      have := ih h'
      simp only [List.length_cons]
      omega
    | cons q r =>
      obtain ⟨k, l⟩ := q
      rw [hf] at h
      have h' : e ∈ (⟨k, i0, l, r⟩ : HeapElem) :: indexedElems (i0 + 1) fs := h
      simp only [List.length_cons]
      rcases List.mem_cons.1 h' with heq | hmem
      · rw [heq]
        simp
      · have := ih hmem
        omega

theorem fst_filePairsIndexed (files : List RunFile) : ∀ (i0 : Nat),
    (filePairsIndexed i0 files).map Prod.fst = List.range' i0 files.length := by
  induction files with
  | nil => intro i0; rfl
  | cons f fs ih =>
    intro i0
    rw [filePairsIndexed, List.map_cons, ih (i0 + 1), List.length_cons, List.range'_succ]

theorem snd_filePairsIndexed (files : List RunFile) : ∀ (i0 : Nat),
    (filePairsIndexed i0 files).map Prod.snd
      = files.map (fun f => flattenGroups (parseFile f)) := by
  induction files with
  | nil => intro i0; rfl
  | cons f fs ih =>
    intro i0
    rw [filePairsIndexed, List.map_cons, List.map_cons, ih (i0 + 1)]

theorem find_indexed : ∀ (files : List RunFile) (i0 i : Nat) (vs : List (Int × String)),
    (∀ f ∈ files, f ≠ []) →
    (i, vs) ∈ filePairsIndexed i0 files →
    ∃ e, heapFind (indexedElems i0 files) i = some e ∧ elemPairs e = vs := by
  intro files
  induction files with
  | nil => intro i0 i vs _ hmem; simp [filePairsIndexed] at hmem
  | cons f fs ih =>
    intro i0 i vs hne hmem
    cases hf : f with
    | nil => exact absurd hf (hne f (by simp))
    | cons q r =>
      obtain ⟨k, l⟩ := q
      rw [hf] at hmem
      have hmem2 : (i, vs) ∈ (i0, flattenGroups (parseFile ((k, l) :: r)))
          :: filePairsIndexed (i0 + 1) fs := hmem
      show ∃ e, heapFind ((⟨k, i0, l, r⟩ : HeapElem) :: indexedElems (i0 + 1) fs) i = some e
        ∧ elemPairs e = vs
      rcases List.mem_cons.1 hmem2 with heq | hmem'
      · have hi : i = i0 := congrArg Prod.fst heq
        have hvs : vs = flattenGroups (parseFile ((k, l) :: r)) := congrArg Prod.snd heq
        refine ⟨⟨k, i0, l, r⟩, ?_, ?_⟩
        · unfold heapFind
          have hb : ((⟨k, i0, l, r⟩ : HeapElem).idx == i) = true := by simp [hi]
          rw [List.find?_cons, hb]
        · rw [hvs]
          rfl
      · have hgt : i0 + 1 ≤ i := by
          have hmm : i ∈ (filePairsIndexed (i0 + 1) fs).map Prod.fst :=
            List.mem_map.2 ⟨(i, vs), hmem', rfl⟩
          rw [fst_filePairsIndexed] at hmm
          have := List.mem_range'.1 hmm
          omega
        obtain ⟨e, he, hev⟩ := ih (i0 + 1) i vs (fun g hg => hne g (by simp [hg])) hmem'
        refine ⟨e, ?_, hev⟩
        unfold heapFind
        have hb : ((⟨k, i0, l, r⟩ : HeapElem).idx == i) = false := by
          simp
          omega
        rw [List.find?_cons, hb]
        exact he

/-- `MergeFileIterator.__init__` succeeds on non-empty files and yields a
well-formed heap holding exactly the files' first entries. -/
theorem mergeInitAux_spec : ∀ (files : List RunFile) (i0 : Nat) (acc : List HeapElem),
    (∀ f ∈ files, f ≠ []) →
    acc.Pairwise heapLT →
    acc.Pairwise (fun a b => a.idx ≠ b.idx) →
    (∀ e ∈ acc, e.idx < i0) →
    ∃ h, mergeInitAux i0 files acc = some h
      ∧ h.Perm (acc ++ indexedElems i0 files)
      ∧ h.Pairwise heapLT
      ∧ h.Pairwise (fun a b => a.idx ≠ b.idx) := by
  intro files
  induction files with
  | nil =>
    intro i0 acc _ hs hi _
    refine ⟨acc, rfl, ?_, hs, hi⟩
    show acc.Perm (acc ++ ([] : List HeapElem))
    rw [List.append_nil]
  | cons f fs ih =>
    intro i0 acc hne hs hi hbound
    cases hf : f with
    | nil => exact absurd hf (hne f (by simp))
    | cons q r =>
      obtain ⟨k, l⟩ := q
      have hfresh : ∀ x ∈ acc, x.idx ≠ (⟨k, i0, l, r⟩ : HeapElem).idx :=
        fun x hx => by have := hbound x hx; simp; omega
      have hs' := sorted_heapPush hs hfresh
      have hi' := idxNe_heapPush hi hfresh
      have hbound' : ∀ e ∈ heapPush ⟨k, i0, l, r⟩ acc, e.idx < i0 + 1 := by
        intro e he
        rcases mem_heapPush.1 he with he | he
        · rw [he]; simp
        · have := hbound e he; omega
      obtain ⟨h, hinit, hperm, hhs, hhi⟩ :=
        ih (i0 + 1) (heapPush ⟨k, i0, l, r⟩ acc) (fun g hg => hne g (by simp [hg]))
          hs' hi' hbound'
      refine ⟨h, ?_, ?_, hhs, hhi⟩
      · exact hinit
      · show h.Perm (acc ++ (⟨k, i0, l, r⟩ : HeapElem) :: indexedElems (i0 + 1) fs)
        refine hperm.trans ?_
        refine List.Perm.trans ((heapPush_perm _ acc).append_right _) ?_
        rw [List.cons_append]
        exact List.perm_middle.symm

theorem pairwise_lt_range' : ∀ (n s : Nat), (List.range' s n).Pairwise (· < ·) := by
  intro n
  induction n with
  | zero => intro s; simp
  | succ n ih =>
    intro s
    rw [List.range'_succ]
    refine List.pairwise_cons.2 ⟨?_, ih (s + 1)⟩
    intro m hm
    have := List.mem_range'.1 hm
    omega

/-- `MergeFileIterator` over non-empty well-formed runs is exactly the
reference grouping of all the runs' pairs, in file-list order. -/
theorem MergeFileIterator_spec (files : List RunFile)
    (hne : ∀ f ∈ files, f ≠ [])
    (hsorted : ∀ f ∈ files, (f.map Prod.fst).Chain' (· < ·))
    (hlines : ∀ f ∈ files, ∀ p ∈ f, splitWS p.2 ≠ []) :
    MergeFileIterator files
      = some (refGroupBy ((files.map (fun f => flattenGroups (parseFile f))).flatten)) := by
  obtain ⟨h, hinit, hperm, hhs, hhi⟩ :=
    mergeInitAux_spec files 0 [] hne List.Pairwise.nil List.Pairwise.nil (by simp)
  have hperm' : h.Perm (indexedElems 0 files) := by simpa using hperm
  have hK : ∀ e ∈ h, e.idx < files.length := by
    intro e he
    have := indexedElems_idx_bounds (hperm'.mem_iff.1 he)
    omega
  have hascend : ∀ e ∈ h, (e.key :: e.rest.map Prod.fst).Chain' (· < ·) := by
    intro e he
    obtain ⟨f, hf, k, l, r, hfe, hek, hel, her⟩ := mem_indexedElems (hperm'.mem_iff.1 he)
    have hch := hsorted f hf
    rw [hfe] at hch
    rw [hek, her]
    exact hch
  have hlinesGood : linesGood h := by
    intro e he
    obtain ⟨f, hf, k, l, r, hfe, hek, hel, her⟩ := mem_indexedElems (hperm'.mem_iff.1 he)
    constructor
    · rw [hel]
      exact hlines f hf (k, l) (by rw [hfe]; simp)
    · intro p hp
      rw [her] at hp
      exact hlines f hf p (by rw [hfe]; simp [hp])
  have hinv : MHeapInv h := ⟨hhs, hhi, hascend⟩
  have hdrain := mergeDrainF_spec files.length (heapSize h) h le_rfl hinv hK hlinesGood
  have hpairs : heapPairs files.length h
      = (files.map (fun f => flattenGroups (parseFile f))).flatten := by
    unfold heapPairs
    rw [List.range_eq_range']
    have hsupp := flatten_range_support (pairsAt h) files.length 0
      (filePairsIndexed 0 files) ?_ ?_ ?_
    · rw [hsupp, snd_filePairsIndexed]
    · rw [fst_filePairsIndexed]
      exact pairwise_lt_range' files.length 0
    · intro p hp
      have hm : p.1 ∈ (filePairsIndexed 0 files).map Prod.fst := List.mem_map.2 ⟨p, hp, rfl⟩
      rw [fst_filePairsIndexed] at hm
      have := List.mem_range'.1 hm
      omega
    · intro i _ hiK
      constructor
      · intro vs hvs
        obtain ⟨e, hfind, hev⟩ := find_indexed files 0 i vs hne hvs
        have hfind' : heapFind h i = some e := by
          rw [heapFind_perm hperm' hhi i]
          exact hfind
        show pairsAt h i = vs
        unfold pairsAt
        rw [hfind']
        exact hev
      · intro hnv
        exfalso
        have hm : i ∈ (filePairsIndexed 0 files).map Prod.fst := by
          rw [fst_filePairsIndexed]
          exact List.mem_range'_1.2 ⟨by omega, by omega⟩
        rw [List.mem_map] at hm
        obtain ⟨p, hp, hpf⟩ := hm
        refine hnv p.2 ?_
        have hpe : p = (i, p.2) := by
          rw [← hpf]
        rw [← hpe]
        exact hp
  unfold MergeFileIterator mergeInit
  rw [hinit]
  show some (mergeDrain h) = _
  unfold mergeDrain
  rw [hdrain, hpairs]

/-- Values that survive the run-file format. -/
def goodPairs (c : List (Int × String)) : Prop := ∀ p ∈ c, goodTok p.2 = true

theorem keysOf_ne_nil {c : List (Int × String)} (hc : c ≠ []) : keysOf c ≠ [] := by
  cases c with
  | nil => exact absurd rfl hc
  | cons p ps =>
    intro h
    have hmem := (mem_keysOf (p :: ps) p.1).2 (by simp)
    rw [h] at hmem
    simp at hmem

theorem mem_of_mem_gather {c : List (Int × String)} {k : Int} {v : String}
    (h : v ∈ gather c k) : (k, v) ∈ c := by
  induction c with
  | nil => simp [gather] at h
  | cons p ps ih =>
    obtain ⟨j, w⟩ := p
    rw [gather_cons] at h
    by_cases hj : j = k
    · rw [if_pos hj] at h
      rcases List.mem_cons.1 h with heq | hmem
      · rw [heq, ← hj]; simp
      · exact List.mem_cons_of_mem _ (ih hmem)
    · rw [if_neg hj] at h
      exact List.mem_cons_of_mem _ (ih h)

theorem refGroupBy_goodValues {c : List (Int × String)} (hg : goodPairs c) :
    ∀ g ∈ refGroupBy c, ∀ v ∈ g.2, goodTok v = true := by
  intro g hgm v hv
  obtain ⟨k, vs⟩ := g
  rcases (mem_refGroupBy c k vs).1 hgm with ⟨_, rfl⟩
  exact hg (k, v) (mem_of_mem_gather hv)

theorem parseFile_write (l : List (Int × List String))
    (h : ∀ g ∈ l, ∀ v ∈ g.2, goodTok v = true) :
    parseFile (write_key_values_to_file l) = l := by
  unfold parseFile write_key_values_to_file
  rw [List.map_map]
  have : l.map ((fun e : Int × String => (e.1, splitWS e.2))
      ∘ (fun kv : Int × List String => (kv.1, joinSpace kv.2))) = l.map id := by
    refine List.map_congr_left (fun g hgm => ?_)
    simp only [Function.comp, id]
    rw [splitWS_joinSpace g.2 (h g hgm)]
  rw [this, List.map_id]

theorem map_fst_write (l : List (Int × List String)) :
    (write_key_values_to_file l).map Prod.fst = l.map Prod.fst := by
  unfold write_key_values_to_file
  rw [List.map_map]
  rfl

theorem flatten_map_refGroupBy_perm (cs : List (List (Int × String))) :
    ((cs.map (fun c => flattenGroups (refGroupBy c))).flatten).Perm cs.flatten := by
  induction cs with
  | nil => exact List.Perm.refl _
  | cons c cs ih =>
    rw [List.map_cons, List.flatten_cons, List.flatten_cons]
    exact (flattenGroups_refGroupBy_perm c).append ih

/-- Merging files that each hold the reference grouping of a chunk yields the
reference grouping of the concatenated chunks. -/
theorem merge_written_refGroupBys (cs : List (List (Int × String)))
    (hne : ∀ c ∈ cs, c ≠ [])
    (hgood : ∀ c ∈ cs, goodPairs c) :
    MergeFileIterator (cs.map (fun c => write_key_values_to_file (refGroupBy c)))
      = some (refGroupBy cs.flatten) := by
  rw [MergeFileIterator_spec]
  · congr 1
    rw [List.map_map]
    have hmapeq : cs.map ((fun f => flattenGroups (parseFile f))
        ∘ (fun c => write_key_values_to_file (refGroupBy c)))
        = cs.map (fun c => flattenGroups (refGroupBy c)) := by
      refine List.map_congr_left (fun c hc => ?_)
      simp only [Function.comp]
      rw [parseFile_write _ (refGroupBy_goodValues (hgood c hc))]
    rw [hmapeq]
    refine refGroupBy_eq_of ?_ ?_
    · intro k
      constructor
      · intro hk
        rw [List.mem_map] at hk
        obtain ⟨p, hp, rfl⟩ := hk
        rw [List.mem_flatten] at hp
        obtain ⟨L, hL, hpL⟩ := hp
        rw [List.mem_map] at hL
        obtain ⟨c, hc, rfl⟩ := hL
        have hp' : p ∈ c := (flattenGroups_refGroupBy_perm c).mem_iff.1 hpL
        refine List.mem_map.2 ⟨p, List.mem_flatten.2 ⟨c, hc, hp'⟩, rfl⟩
      · intro hk
        rw [List.mem_map] at hk
        obtain ⟨p, hp, rfl⟩ := hk
        rw [List.mem_flatten] at hp
        obtain ⟨c, hc, hpc⟩ := hp
        have hp' : p ∈ flattenGroups (refGroupBy c) :=
          (flattenGroups_refGroupBy_perm c).mem_iff.2 hpc
        exact List.mem_map.2 ⟨p, List.mem_flatten.2
          ⟨flattenGroups (refGroupBy c), List.mem_map.2 ⟨c, hc, rfl⟩, hp'⟩, rfl⟩
    · intro k
      rw [gather_flatten, gather_flatten, List.map_map]
      congr 1
      refine List.map_congr_left (fun c _ => ?_)
      simp only [Function.comp]
      exact gather_flattenGroups_refGroupBy c k
  · intro f hf
    rw [List.mem_map] at hf
    obtain ⟨c, hc, rfl⟩ := hf
    unfold write_key_values_to_file
    intro hnil
    rw [List.map_eq_nil_iff] at hnil
    exact keysOf_ne_nil (hne c hc) (by
      have : refGroupBy c = [] := hnil
      unfold refGroupBy at this
      rw [List.map_eq_nil_iff] at this
      exact this)
  · intro f hf
    rw [List.mem_map] at hf
    obtain ⟨c, hc, rfl⟩ := hf
    rw [map_fst_write, map_fst_refGroupBy]
    exact List.chain'_iff_pairwise.2 (sorted_keysOf c)
  · intro f hf p hp
    rw [List.mem_map] at hf
    obtain ⟨c, hc, rfl⟩ := hf
    unfold write_key_values_to_file at hp
    rw [List.mem_map] at hp
    obtain ⟨g, hg, rfl⟩ := hp
    obtain ⟨k, vs⟩ := g
    rcases (mem_refGroupBy c k vs).1 hg with ⟨hk, rfl⟩
    show splitWS (joinSpace (gather c k)) ≠ []
    rw [splitWS_joinSpace _ (fun v hv => hgood c hc (k, v) (mem_of_mem_gather hv))]
    exact gather_ne_nil_of_mem_keysOf hk

/-! ### The engine (`GroupByStatement`) -/

/-- Failures as the Python code exhibits them.  `raisedStr` models
`raise error_msg` applied to a plain string — the source raises the message
object itself, not an exception type.  `stopIteration` models an uncaught
`StopIteration` escaping, as when `MergeFileIterator.__init__` reads an empty
file.  `mergeNotPossible` is the typed error that the spec's taxonomy (§7)
prescribes for the `max_num_files < 2` failure; it is modelled from the spec
for comparison and is never produced by the code model. -/
inductive PyError where
  | raisedStr (msg : String)
  | stopIteration
  | mergeNotPossible
deriving DecidableEq

/-- Outcome of `GroupByStatement._merge_dump_files`: the raised error if any,
the remaining dump files, the merge-stage counter, and whether the workspace
was removed (`shutil.rmtree(self._request_id)`) on the error path. -/
structure MergeResult where
  err : Option PyError
  files : List RunFile
  stages : Nat
  wsRemoved : Bool
deriving DecidableEq

/-- Contiguous groups of at most `m` files, as enumerated by
`range(0, num_files, max_num_files)` with slices
`range(index, min(num_files, index + max_num_files))`.  Fueled by the list
length (sufficient whenever `1 ≤ m`). -/
def chunksOfF {α : Type} : Nat → Nat → List α → List (List α)
  | 0, _, _ => []
  | _, _, [] => []
  | fuel + 1, m, l => l.take m :: chunksOfF fuel m (l.drop m)

def chunksOf {α : Type} (m : Nat) (l : List α) : List (List α) := chunksOfF l.length m l

/-- One group of a pass: a single file is renamed into its slot
(`shutil.move`), two or more are merged through `MergeFileIterator`, written
to the `_merge` scratch file, and the scratch renamed into the slot. -/
def mergeGroup (g : List RunFile) : Option RunFile :=
  if g.length = 1 then some (g.headD [])
  else (MergeFileIterator g).map write_key_values_to_file

/-- One pass of the merge loop. -/
def mergePass (m : Nat) (files : List RunFile) : Option (List RunFile) :=
  (chunksOf m files).mapM mergeGroup

def mergeErrorMsg : String :=
  "Unable to merge dump files: max_num_files has to be greater than 1"

/-- The `while self._num_files > self._max_num_files` loop of
`_merge_dump_files`.  The fuel bounds the number of passes; one more than the
file count suffices because every pass strictly shrinks the file list. -/
def mergeDumpFilesF (m : Nat) : Nat → List RunFile → Nat → MergeResult
  | 0, files, stages => ⟨none, files, stages, false⟩
  | fuel + 1, files, stages =>
    if files.length ≤ m then ⟨none, files, stages, false⟩
    else if m < 2 then ⟨some (.raisedStr mergeErrorMsg), files, stages, true⟩
    else
      match mergePass m files with
      | none => ⟨some .stopIteration, files, stages, false⟩
      | some files' => mergeDumpFilesF m fuel files' (stages + 1)

def merge_dump_files (m : Nat) (files : List RunFile) (stages : Nat) : MergeResult :=
  mergeDumpFilesF m (files.length + 1) files stages

/-- State of `_chunk_input_into_dump_files` plus the engine fields it
mutates. -/
structure ChunkState where
  numFiles : Nat
  maxEntries : Nat
  maxFiles : Nat
  totalEntries : Nat
  spills : Nat
  count : Nat
  hashmap : Hashmap
  files : List RunFile
deriving DecidableEq

/-- One iteration of the `while input_iterator.hasNext()` loop: spill check,
`next`, the one-shot `max_memory` auto-tune, then the insertion.  `kvSize`
stands for `sys.getsizeof(key) + sys.getsizeof(value)` of the first pair. -/
def chunkStep (kvSize : Nat) (maxMemory : Int) (st : ChunkState) (p : Int × String) :
    ChunkState :=
  let spilled := if st.maxEntries ≤ st.count then
      { st with files := st.files ++ [dump_hashmap_to_disk st.hashmap],
                numFiles := st.numFiles + 1, spills := st.spills + 1,
                hashmap := [], count := 0 }
    else st
  let counted := { spilled with totalEntries := spilled.totalEntries + 1 }
  let tuned := if 0 < maxMemory ∧ counted.totalEntries = 1 then
      { counted with maxEntries := maxMemory.toNat / kvSize,
                     maxFiles := min 1000 (maxMemory.toNat / kvSize) }
    else counted
  { tuned with hashmap := hmInsert tuned.hashmap p.1 p.2, count := tuned.count + 1 }

def chunkLoop (kvSize : Nat) (maxMemory : Int) :
    List (Int × String) → ChunkState → ChunkState
  | [], st => st
  | p :: rest, st => chunkLoop kvSize maxMemory rest (chunkStep kvSize maxMemory st p)

def chunkInit (maxFiles maxEntries : Nat) : ChunkState :=
  ⟨0, maxEntries, maxFiles, 0, 0, 0, [], []⟩

/-- `GroupByStatement._chunk_input_into_dump_files`: the returned hashmap on
the fits-in-memory path (`num_files == 0`), plus the final engine state with
the last spill applied. -/
def chunk_input_into_dump_files (kvSize : Nat) (maxMemory : Int)
    (maxFiles maxEntries : Nat) (input : List (Int × String)) :
    Option Hashmap × ChunkState :=
  let st := chunkLoop kvSize maxMemory input (chunkInit maxFiles maxEntries)
  if st.numFiles = 0 then (some st.hashmap, st)
  else if st.count ≠ 0 then
    let stf : ChunkState :=
      { st with
        files := st.files ++ [dump_hashmap_to_disk st.hashmap],
        numFiles := st.numFiles + 1,
        spills := st.spills + 1,
        hashmap := [] }
    (none, stf)
  else (none, st)

/-- `GroupByStatement.groupBy` as a whole-stream function: the emitted
`(key, values)` stream on success, the raised error otherwise.  The memory
variant emits the sorted hashmap items; the disk variant merges, then drains
the `MergeFileIterator` the `KeyListIteratorFromDisk` wraps. -/
def groupByPipeline (maxFiles maxEntries : Nat) (maxMemory : Int) (kvSize : Nat)
    (input : List (Int × String)) : Except PyError (List (Int × List String)) :=
  if input = [] then .ok []
  else
    match chunk_input_into_dump_files kvSize maxMemory maxFiles maxEntries input with
    | (some hm, _) => .ok (sortItems hm)
    | (none, st) =>
      let mr := merge_dump_files st.maxFiles st.files 0
      match mr.err with
      | some e => .error e
      | none =>
        match MergeFileIterator mr.files with
        | none => .error .stopIteration
        | some out => .ok out

/-- The spill threshold in force after the first pair has been processed. -/
def effMaxEntries (maxEntries kvSize : Nat) (maxMemory : Int) : Nat :=
  if 0 < maxMemory then maxMemory.toNat / kvSize else maxEntries

/-- The merge fan-in in force after the first pair has been processed. -/
def effMaxFiles (maxFiles kvSize : Nat) (maxMemory : Int) : Nat :=
  if 0 < maxMemory then min 1000 (maxMemory.toNat / kvSize) else maxFiles

/-- Reference chunking: `chunkSpec e partial input` returns the completed
chunks and the trailing partial chunk when the spill threshold is `e`. -/
def chunkSpec (e : Nat) :
    List (Int × String) → List (Int × String) →
      List (List (Int × String)) × List (Int × String)
  | cur, [] => ([], cur)
  | cur, x :: rest =>
    if e ≤ cur.length then
      let r := chunkSpec e [x] rest
      (cur :: r.1, r.2)
    else
      chunkSpec e (cur ++ [x]) rest

theorem chunksOfF_spec {α : Type} (m : Nat) (hm : 1 ≤ m) :
    ∀ (fuel : Nat) (l : List α), l.length ≤ fuel →
      (chunksOfF fuel m l).flatten = l
        ∧ (chunksOfF fuel m l).length = (l.length + m - 1) / m
        ∧ (∀ g ∈ chunksOfF fuel m l, g ≠ [] ∧ g.length ≤ m)
        ∧ (∀ g ∈ chunksOfF fuel m l, ∀ x ∈ g, x ∈ l) := by
  intro fuel
  induction fuel with
  | zero =>
    intro l hl
    have : l = [] := List.length_eq_zero.1 (Nat.le_zero.1 hl)
    subst this
    refine ⟨rfl, ?_, by simp [chunksOfF], by simp [chunksOfF]⟩
    show (chunksOfF 0 m []).length = (0 + m - 1) / m
    rw [show (0 + m - 1) / m = 0 from Nat.div_eq_of_lt (by omega)]
    rfl
  | succ fuel ih =>
    intro l hl
    cases l with
    | nil =>
      refine ⟨rfl, ?_, by simp [chunksOfF], by simp [chunksOfF]⟩
      show (chunksOfF (fuel + 1) m []).length = (0 + m - 1) / m
      rw [show (0 + m - 1) / m = 0 from Nat.div_eq_of_lt (by omega)]
      rfl
    | cons x xs =>
      have hstep : chunksOfF (fuel + 1) m (x :: xs)
          = (x :: xs).take m :: chunksOfF fuel m ((x :: xs).drop m) := rfl
      have hdlen : ((x :: xs).drop m).length ≤ fuel := by
        rw [List.length_drop]
        simp only [List.length_cons] at hl ⊢
        omega
      obtain ⟨ihj, ihl, ihg, ihm⟩ := ih ((x :: xs).drop m) hdlen
      refine ⟨?_, ?_, ?_, ?_⟩
      · rw [hstep, List.flatten_cons, ihj, List.take_append_drop]
      · rw [hstep, List.length_cons, ihl, List.length_drop]
        simp only [List.length_cons]
        set n := xs.length + 1 with hn
        have hn1 : 1 ≤ n := by omega
        by_cases hnm : n ≤ m
        · rw [show n - m = 0 from by omega]
          rw [show (0 + m - 1) / m = 0 from Nat.div_eq_of_lt (by omega)]
          rw [show (n + m - 1) / m = (n - 1 + m) / m from by congr 1; omega]
          rw [Nat.add_div_right _ (by omega)]
          rw [show (n - 1) / m = 0 from Nat.div_eq_of_lt (by omega)]
        · rw [show (n - m + m - 1) / m = (n - m - 1 + m) / m from by congr 1; omega]
          rw [Nat.add_div_right _ (by omega)]
          rw [show (n + m - 1) / m = (n - 1 + m) / m from by congr 1; omega]
          rw [Nat.add_div_right _ (by omega)]
          rw [show n - 1 = (n - m - 1) + m from by omega]
          rw [Nat.add_div_right _ (by omega)]
      · rw [hstep]
        intro g hg
        rcases List.mem_cons.1 hg with hg | hg
        · subst hg
          constructor
          · simp [List.take_eq_nil_iff]
            omega
          · exact (List.length_take _ _).le.trans (by simp)
        · exact ihg g hg
      · rw [hstep]
        intro g hg y hy
        rcases List.mem_cons.1 hg with hg | hg
        · subst hg
          exact List.mem_of_mem_take hy
        · exact List.mem_of_mem_drop (ihm g hg y hy)

theorem chunksOf_flatten {α : Type} (m : Nat) (hm : 1 ≤ m) (l : List α) :
    (chunksOf m l).flatten = l := (chunksOfF_spec m hm l.length l le_rfl).1

theorem chunksOf_length {α : Type} (m : Nat) (hm : 1 ≤ m) (l : List α) :
    (chunksOf m l).length = (l.length + m - 1) / m := (chunksOfF_spec m hm l.length l le_rfl).2.1

theorem chunksOf_groups {α : Type} (m : Nat) (hm : 1 ≤ m) (l : List α) :
    ∀ g ∈ chunksOf m l, g ≠ [] ∧ g.length ≤ m := (chunksOfF_spec m hm l.length l le_rfl).2.2.1

theorem chunksOf_mem {α : Type} (m : Nat) (hm : 1 ≤ m) (l : List α) :
    ∀ g ∈ chunksOf m l, ∀ x ∈ g, x ∈ l := (chunksOfF_spec m hm l.length l le_rfl).2.2.2

theorem chunksOfF_map {α β : Type} (f : α → β) (m : Nat) :
    ∀ (fuel : Nat) (l : List α),
      chunksOfF fuel m (l.map f) = (chunksOfF fuel m l).map (List.map f) := by
  intro fuel
  induction fuel with
  | zero => intro l; simp [chunksOfF]
  | succ fuel ih =>
    intro l
    cases l with
    | nil => rfl
    | cons x xs =>
      show (List.map f (x :: xs)).take m :: chunksOfF fuel m ((List.map f (x :: xs)).drop m)
          = ((x :: xs).take m).map f :: (chunksOfF fuel m ((x :: xs).drop m)).map (List.map f)
      rw [← List.map_take, ← List.map_drop, ih]

theorem chunksOf_map {α β : Type} (f : α → β) (m : Nat) (l : List α) :
    chunksOf m (l.map f) = (chunksOf m l).map (List.map f) := by
  unfold chunksOf
  rw [List.length_map]
  exact chunksOfF_map f m l.length l

theorem mapM_eq_some_of_forall {α β : Type} (f : α → Option β) (F : α → β) :
    ∀ (l : List α), (∀ a ∈ l, f a = some (F a)) → l.mapM f = some (l.map F) := by
  intro l
  induction l with
  | nil => intro _; rfl
  | cons x xs ih =>
    intro h
    rw [List.mapM_cons, h x (by simp), ih (fun a ha => h a (by simp [ha]))]
    rfl

theorem mapM_length {α β : Type} (f : α → Option β) :
    ∀ (l : List α) (l' : List β), l.mapM f = some l' → l'.length = l.length := by
  intro l
  induction l with
  | nil =>
    intro l' h
    simp only [List.mapM_nil] at h
    injection h with h
    rw [← h]
    rfl
  | cons x xs ih =>
    intro l' h
    rw [List.mapM_cons] at h
    cases hx : f x with
    | none => rw [hx] at h; simp at h
    | some b =>
      rw [hx] at h
      cases hxs : xs.mapM f with
      | none => rw [hxs] at h; simp at h
      | some bs =>
        rw [hxs] at h
        simp at h
        rw [← h]
        simp [ih bs hxs]

theorem flatten_map_flatten {α : Type} :
    ∀ (L : List (List (List α))), (L.map List.flatten).flatten = L.flatten.flatten := by
  intro L
  induction L with
  | nil => rfl
  | cons g L ih => simp [ih]

theorem flatten_ne_nil {α : Type} {g : List (List α)} (hg : g ≠ [])
    (hx : ∀ x ∈ g, x ≠ []) : g.flatten ≠ [] := by
  cases g with
  | nil => exact absurd rfl hg
  | cons c rest =>
    rw [List.flatten_cons]
    have := hx c (by simp)
    intro hc
    rw [List.append_eq_nil] at hc
    exact this hc.1

theorem mapM_map_general {α β γ : Type} (g : α → β) (f : β → Option γ) :
    ∀ (l : List α), (l.map g).mapM f = l.mapM (fun a => f (g a)) := by
  intro l
  induction l with
  | nil => rfl
  | cons x xs ih =>
    rw [List.map_cons, List.mapM_cons, List.mapM_cons, ih]

theorem mergeGroup_written (g : List (List (Int × String)))
    (hg : g ≠ []) (hne : ∀ c ∈ g, c ≠ []) (hgood : ∀ c ∈ g, goodPairs c) :
    mergeGroup (g.map (fun c => write_key_values_to_file (refGroupBy c)))
      = some (write_key_values_to_file (refGroupBy g.flatten)) := by
  unfold mergeGroup
  by_cases h1 : (g.map (fun c => write_key_values_to_file (refGroupBy c))).length = 1
  · rw [if_pos h1]
    rw [List.length_map] at h1
    obtain ⟨c, rfl⟩ := List.length_eq_one.1 h1
    show some (write_key_values_to_file (refGroupBy c)) = _
    rw [show ([c] : List (List (Int × String))).flatten = c from by simp]
  · rw [if_neg h1]
    rw [merge_written_refGroupBys g hne hgood]
    rfl

theorem mergePass_written (m : Nat) (hm : 2 ≤ m) (cs : List (List (Int × String)))
    (hne : ∀ c ∈ cs, c ≠ []) (hgood : ∀ c ∈ cs, goodPairs c) :
    mergePass m (cs.map (fun c => write_key_values_to_file (refGroupBy c)))
      = some (((chunksOf m cs).map List.flatten).map
          (fun c => write_key_values_to_file (refGroupBy c))) := by
  unfold mergePass
  rw [chunksOf_map, mapM_map_general]
  have h := mapM_eq_some_of_forall
      (fun g => mergeGroup (g.map (fun c => write_key_values_to_file (refGroupBy c))))
      (fun g => write_key_values_to_file (refGroupBy g.flatten))
      (chunksOf m cs) ?_
  · rw [h, List.map_map]
    rfl
  · intro g hgm
    have hgne := (chunksOf_groups m (by omega) cs g hgm).1
    have hgmem := chunksOf_mem m (by omega) cs g hgm
    exact mergeGroup_written g hgne (fun c hc => hne c (hgmem c hc))
      (fun c hc => hgood c (hgmem c hc))

/-- The merge loop on files holding chunk groupings: it terminates without
error, preserves the concatenated content, and bounds the file count. -/
theorem mergeDumpFilesF_written (m : Nat) (hm : 2 ≤ m) :
    ∀ (fuel : Nat) (cs : List (List (Int × String))) (s : Nat),
    cs.length < fuel →
    (∀ c ∈ cs, c ≠ []) → (∀ c ∈ cs, goodPairs c) →
    ∃ (cs' : List (List (Int × String))) (s' : Nat),
      mergeDumpFilesF m fuel (cs.map (fun c => write_key_values_to_file (refGroupBy c))) s
        = ⟨none, cs'.map (fun c => write_key_values_to_file (refGroupBy c)), s', false⟩
      ∧ cs'.flatten = cs.flatten ∧ (∀ c ∈ cs', c ≠ []) ∧ (∀ c ∈ cs', goodPairs c)
      ∧ cs'.length ≤ m := by
  intro fuel
  induction fuel with
  | zero =>
    intro cs s h
    omega
  | succ fuel ih =>
    intro cs s hlen hne hgood
    rw [mergeDumpFilesF, List.length_map]
    by_cases hle : cs.length ≤ m
    · rw [if_pos hle]
      exact ⟨cs, s, rfl, rfl, hne, hgood, hle⟩
    · rw [if_neg hle, if_neg (by omega)]
      rw [mergePass_written m hm cs hne hgood]
      set cs₂ := (chunksOf m cs).map List.flatten with hcs₂
      have hflat2 : cs₂.flatten = cs.flatten := by
        rw [hcs₂, flatten_map_flatten, chunksOf_flatten m (by omega)]
      have hne2 : ∀ c ∈ cs₂, c ≠ [] := by
        intro c hc
        rw [hcs₂, List.mem_map] at hc
        obtain ⟨g, hg, rfl⟩ := hc
        exact flatten_ne_nil (chunksOf_groups m (by omega) cs g hg).1
          (fun x hx => hne x (chunksOf_mem m (by omega) cs g hg x hx))
      have hgood2 : ∀ c ∈ cs₂, goodPairs c := by
        intro c hc
        rw [hcs₂, List.mem_map] at hc
        obtain ⟨g, hg, rfl⟩ := hc
        intro p hp
        rw [List.mem_flatten] at hp
        obtain ⟨x, hx, hpx⟩ := hp
        exact hgood x (chunksOf_mem m (by omega) cs g hg x hx) p hpx
      have hlen2 : cs₂.length < cs.length := by
        rw [hcs₂, List.length_map, chunksOf_length m (by omega)]
        have h2 : cs.length * 2 ≤ cs.length * m := Nat.mul_le_mul_left cs.length hm
        rw [Nat.div_lt_iff_lt_mul (by omega : 0 < m)]
        omega
      obtain ⟨cs', s', heq, hfl, hne', hgood', hle'⟩ := ih cs₂ (s + 1) (by omega) hne2 hgood2
      exact ⟨cs', s', heq, by rw [hfl, hflat2], hne', hgood', hle'⟩

theorem chunkStep_no_spill (kvSize : Nat) (mm : Int) (st : ChunkState)
    (p : Int × String) (hlt : st.count < st.maxEntries)
    (hnt : ¬(0 < mm ∧ st.totalEntries + 1 = 1)) :
    chunkStep kvSize mm st p =
      { st with totalEntries := st.totalEntries + 1,
                hashmap := hmInsert st.hashmap p.1 p.2,
                count := st.count + 1 } := by
  unfold chunkStep
  rw [if_neg (by omega : ¬ st.maxEntries ≤ st.count)]
  simp only []
  rw [if_neg hnt]

theorem chunkStep_spill (kvSize : Nat) (mm : Int) (st : ChunkState)
    (p : Int × String) (hge : st.maxEntries ≤ st.count)
    (hnt : ¬(0 < mm ∧ st.totalEntries + 1 = 1)) :
    chunkStep kvSize mm st p =
      { st with files := st.files ++ [dump_hashmap_to_disk st.hashmap],
                numFiles := st.numFiles + 1,
                spills := st.spills + 1,
                totalEntries := st.totalEntries + 1,
                hashmap := hmInsert [] p.1 p.2,
                count := 1 } := by
  unfold chunkStep
  rw [if_pos hge]
  simp only []
  rw [if_neg hnt]

/-- Characterization of the chunking loop once the threshold is fixed at `e`
(no auto-tune can fire any more). -/
theorem chunkLoop_spec (kvSize : Nat) (mm : Int) (e : Nat) :
    ∀ (input : List (Int × String)) (st : ChunkState) (cur : List (Int × String)),
    st.maxEntries = e →
    st.hashmap = hmOf cur →
    st.count = cur.length →
    (0 < mm → 1 ≤ st.totalEntries) →
    chunkLoop kvSize mm input st =
      { st with
        files := st.files ++
          ((chunkSpec e cur input).1.map (fun c => dump_hashmap_to_disk (hmOf c))),
        numFiles := st.numFiles + (chunkSpec e cur input).1.length,
        spills := st.spills + (chunkSpec e cur input).1.length,
        totalEntries := st.totalEntries + input.length,
        hashmap := hmOf (chunkSpec e cur input).2,
        count := (chunkSpec e cur input).2.length } := by
  intro input
  induction input with
  | nil =>
    intro st cur hme hhm hcnt _
    cases st with
    | mk nf me mf te sp cnt hm fs =>
      simp only at hme hhm hcnt
      subst hme hhm hcnt
      simp [chunkLoop, chunkSpec]
  | cons x rest ih =>
    intro st cur hme hhm hcnt hte
    obtain ⟨xk, xv⟩ := x
    have hnt : ¬(0 < mm ∧ st.totalEntries + 1 = 1) := by
      intro hc
      have := hte hc.1
      omega
    show chunkLoop kvSize mm rest (chunkStep kvSize mm st (xk, xv)) = _
    by_cases hsp : e ≤ cur.length
    · have hcs : chunkSpec e cur ((xk, xv) :: rest) =
          (cur :: (chunkSpec e [(xk, xv)] rest).1, (chunkSpec e [(xk, xv)] rest).2) := by
        rw [chunkSpec, if_pos hsp]
      rw [hcs]
      rw [chunkStep_spill kvSize mm st (xk, xv) (by omega) hnt]
      rw [ih _ [(xk, xv)] (by simpa using hme) (by rfl) (by rfl)
        (fun _ => by simp)]
      cases st with
      | mk nf me mf te sp cnt hm fs =>
        simp only at hme hhm hcnt
        subst hme hhm hcnt
        simp [List.append_assoc]
        omega
    · have hcs : chunkSpec e cur ((xk, xv) :: rest) = chunkSpec e (cur ++ [(xk, xv)]) rest := by
        rw [chunkSpec, if_neg hsp]
      rw [hcs]
      rw [chunkStep_no_spill kvSize mm st (xk, xv) (by omega) hnt]
      rw [ih _ (cur ++ [(xk, xv)]) (by simpa using hme)
        (by simp only []; rw [hhm, hmOf_append_single]) (by simp [hcnt])
        (fun _ => by simp)]
      cases st with
      | mk nf me mf te sp cnt hm fs =>
        simp only at hme hhm hcnt
        subst hme hhm hcnt
        simp
        omega

theorem chunkSpec_flatten (e : Nat) :
    ∀ (input cur : List (Int × String)),
    (chunkSpec e cur input).1.flatten ++ (chunkSpec e cur input).2 = cur ++ input := by
  intro input
  induction input with
  | nil =>
    intro cur
    simp [chunkSpec]
  | cons x rest ih =>
    intro cur
    rw [chunkSpec]
    by_cases hsp : e ≤ cur.length
    · rw [if_pos hsp]
      show (cur :: (chunkSpec e [x] rest).1).flatten ++ _ = _
      rw [List.flatten_cons, List.append_assoc, ih [x]]
      simp
    · rw [if_neg hsp]
      rw [ih (cur ++ [x])]
      simp
  
theorem chunkSpec_chunks_ne_nil (e : Nat) (he : 1 ≤ e) :
    ∀ (input cur : List (Int × String)),
    ∀ c ∈ (chunkSpec e cur input).1, c ≠ [] := by
  intro input
  induction input with
  | nil =>
    intro cur c hc
    simp [chunkSpec] at hc
  | cons x rest ih =>
    intro cur c hc
    rw [chunkSpec] at hc
    by_cases hsp : e ≤ cur.length
    · rw [if_pos hsp] at hc
      rcases List.mem_cons.1 hc with h | h
      · subst h
        intro hnil
        rw [hnil] at hsp
        simp at hsp
        omega
      · exact ih [x] c h
    · rw [if_neg hsp] at hc
      exact ih (cur ++ [x]) c hc

theorem chunkSpec_partial_ne_nil (e : Nat) :
    ∀ (input cur : List (Int × String)), cur ≠ [] →
    (chunkSpec e cur input).2 ≠ [] := by
  intro input
  induction input with
  | nil =>
    intro cur hcur
    simpa [chunkSpec] using hcur
  | cons x rest ih =>
    intro cur hcur
    rw [chunkSpec]
    by_cases hsp : e ≤ cur.length
    · rw [if_pos hsp]
      exact ih [x] (by simp)
    · rw [if_neg hsp]
      exact ih (cur ++ [x]) (by simp)

theorem dump_hmOf (c : List (Int × String)) :
    dump_hashmap_to_disk (hmOf c) = write_key_values_to_file (refGroupBy c) := by
  rw [dump_hashmap_to_disk, sortItems_hmOf]

/-- The first loop iteration: no spill can fire (the hashmap is empty and the
configured threshold is positive), and the one-shot auto-tune installs the
effective limits. -/
theorem chunkStep_first (kvSize : Nat) (mm : Int) (maxFiles maxE : Nat)
    (h1 : 1 ≤ maxE) (p : Int × String) :
    chunkStep kvSize mm (chunkInit maxFiles maxE) p =
      ⟨0, effMaxEntries maxE kvSize mm, effMaxFiles maxFiles kvSize mm, 1, 0, 1,
        hmInsert [] p.1 p.2, []⟩ := by
  unfold chunkStep chunkInit effMaxEntries effMaxFiles
  rw [if_neg (by simp; omega : ¬ (ChunkState.mk 0 maxE maxFiles 0 0 0 [] []).maxEntries ≤
    (ChunkState.mk 0 maxE maxFiles 0 0 0 [] []).count)]
  simp only []
  by_cases hmm : 0 < mm
  · rw [if_pos ⟨hmm, trivial⟩, if_pos hmm, if_pos hmm]
  · rw [if_neg (by simp [hmm]), if_neg hmm, if_neg hmm]

theorem chunkLoop_init (kvSize : Nat) (mm : Int) (maxFiles maxE : Nat)
    (h1 : 1 ≤ maxE) (x : Int × String) (rest : List (Int × String)) :
    chunkLoop kvSize mm (x :: rest) (chunkInit maxFiles maxE) =
      ⟨(chunkSpec (effMaxEntries maxE kvSize mm) [x] rest).1.length,
       effMaxEntries maxE kvSize mm, effMaxFiles maxFiles kvSize mm,
       1 + rest.length,
       (chunkSpec (effMaxEntries maxE kvSize mm) [x] rest).1.length,
       (chunkSpec (effMaxEntries maxE kvSize mm) [x] rest).2.length,
       hmOf (chunkSpec (effMaxEntries maxE kvSize mm) [x] rest).2,
       (chunkSpec (effMaxEntries maxE kvSize mm) [x] rest).1.map
         (fun c => dump_hashmap_to_disk (hmOf c))⟩ := by
  show chunkLoop kvSize mm rest (chunkStep kvSize mm (chunkInit maxFiles maxE) x) = _
  rw [chunkStep_first kvSize mm maxFiles maxE h1 x]
  rw [chunkLoop_spec kvSize mm (effMaxEntries maxE kvSize mm) rest _ [x]
    rfl rfl rfl (fun _ => le_refl 1)]
  simp

/-- The fits-in-memory path of `_chunk_input_into_dump_files`: no spill ever
happened, so the hashmap holding the whole input is returned. -/
theorem chunk_input_fast (kvSize : Nat) (mm : Int) (maxFiles maxE : Nat)
    (h1 : 1 ≤ maxE) (x : Int × String) (rest : List (Int × String))
    (hr : (chunkSpec (effMaxEntries maxE kvSize mm) [x] rest).1 = []) :
    chunk_input_into_dump_files kvSize mm maxFiles maxE (x :: rest) =
      (some (hmOf (x :: rest)),
       ⟨0, effMaxEntries maxE kvSize mm, effMaxFiles maxFiles kvSize mm,
        1 + rest.length, 0, (x :: rest).length, hmOf (x :: rest), []⟩) := by
  have hflat := chunkSpec_flatten (effMaxEntries maxE kvSize mm) rest [x]
  rw [hr] at hflat
  simp at hflat
  unfold chunk_input_into_dump_files
  rw [chunkLoop_init kvSize mm maxFiles maxE h1 x rest, hr, hflat]
  simp

/-- The spill path of `_chunk_input_into_dump_files`: every completed chunk
was dumped during the loop and the trailing partial hashmap is dumped at the
end (its `count` is never zero because the partial chunk is nonempty). -/
theorem chunk_input_disk (kvSize : Nat) (mm : Int) (maxFiles maxE : Nat)
    (h1 : 1 ≤ maxE) (x : Int × String) (rest : List (Int × String))
    (hr : (chunkSpec (effMaxEntries maxE kvSize mm) [x] rest).1 ≠ []) :
    chunk_input_into_dump_files kvSize mm maxFiles maxE (x :: rest) =
      (none,
       ⟨(chunkSpec (effMaxEntries maxE kvSize mm) [x] rest).1.length + 1,
        effMaxEntries maxE kvSize mm, effMaxFiles maxFiles kvSize mm,
        1 + rest.length,
        (chunkSpec (effMaxEntries maxE kvSize mm) [x] rest).1.length + 1,
        (chunkSpec (effMaxEntries maxE kvSize mm) [x] rest).2.length,
        [],
        ((chunkSpec (effMaxEntries maxE kvSize mm) [x] rest).1 ++
          [(chunkSpec (effMaxEntries maxE kvSize mm) [x] rest).2]).map
          (fun c => dump_hashmap_to_disk (hmOf c))⟩) := by
  have hp : (chunkSpec (effMaxEntries maxE kvSize mm) [x] rest).2 ≠ [] :=
    chunkSpec_partial_ne_nil (effMaxEntries maxE kvSize mm) rest [x] (by simp)
  unfold chunk_input_into_dump_files
  rw [chunkLoop_init kvSize mm maxFiles maxE h1 x rest]
  simp only []
  rw [if_neg (by simpa using hr)]
  rw [if_pos (by simpa using hp)]
  simp

theorem pipeline_disk_aux (m : Nat) (hm : 2 ≤ m) (files : List RunFile)
    (cs : List (List (Int × String)))
    (hfiles : files = cs.map (fun c => write_key_values_to_file (refGroupBy c)))
    (hne : ∀ c ∈ cs, c ≠ []) (hgood : ∀ c ∈ cs, goodPairs c)
    (out : List (Int × String)) (hout : cs.flatten = out) :
    (let mr := merge_dump_files m files 0
     match mr.err with
     | some err => (Except.error err : Except PyError (List (Int × List String)))
     | none =>
       match MergeFileIterator mr.files with
       | none => Except.error PyError.stopIteration
       | some o => Except.ok o) = Except.ok (refGroupBy out) := by
  obtain ⟨cs', s', heq, hfl, hne', hgood', _⟩ :=
    mergeDumpFilesF_written m hm (cs.length + 1) cs 0 (by omega) hne hgood
  simp only []
  unfold merge_dump_files
  rw [hfiles, List.length_map, heq]
  simp only []
  rw [merge_written_refGroupBys cs' hne' hgood', hfl, hout]

/-- End-to-end correctness of the spill-and-merge pipeline under a sane
configuration: the emitted stream is the reference group-by of the input. -/
theorem groupByPipeline_correct (maxFiles maxE : Nat) (mm : Int) (kvSize : Nat)
    (input : List (Int × String))
    (h1 : 1 ≤ maxE)
    (hE : 1 ≤ effMaxEntries maxE kvSize mm)
    (hF : 2 ≤ effMaxFiles maxFiles kvSize mm)
    (hgood : goodPairs input) :
    groupByPipeline maxFiles maxE mm kvSize input = .ok (refGroupBy input) := by
  cases input with
  | nil => rfl
  | cons x rest =>
    unfold groupByPipeline
    rw [if_neg (by simp : ¬ (x :: rest : List (Int × String)) = [])]
    by_cases hempty : (chunkSpec (effMaxEntries maxE kvSize mm) [x] rest).1 = []
    · rw [chunk_input_fast kvSize mm maxFiles maxE h1 x rest hempty]
      show Except.ok (sortItems (hmOf (x :: rest))) = _
      rw [sortItems_hmOf]
    · rw [chunk_input_disk kvSize mm maxFiles maxE h1 x rest hempty]
      have hflat : ((chunkSpec (effMaxEntries maxE kvSize mm) [x] rest).1 ++
          [(chunkSpec (effMaxEntries maxE kvSize mm) [x] rest).2]).flatten
            = x :: rest := by
        rw [List.flatten_append, List.flatten_cons, List.flatten_nil, List.append_nil]
        exact chunkSpec_flatten (effMaxEntries maxE kvSize mm) rest [x]
      have hne : ∀ c ∈ (chunkSpec (effMaxEntries maxE kvSize mm) [x] rest).1 ++
          [(chunkSpec (effMaxEntries maxE kvSize mm) [x] rest).2], c ≠ [] := by
        intro c hc
        rcases List.mem_append.1 hc with h | h
        · exact chunkSpec_chunks_ne_nil (effMaxEntries maxE kvSize mm) hE rest [x] c h
        · rw [List.mem_singleton] at h
          subst h
          exact chunkSpec_partial_ne_nil (effMaxEntries maxE kvSize mm) rest [x] (by simp)
      have hgoodcs : ∀ c ∈ (chunkSpec (effMaxEntries maxE kvSize mm) [x] rest).1 ++
          [(chunkSpec (effMaxEntries maxE kvSize mm) [x] rest).2], goodPairs c := by
        intro c hc p hp
        apply hgood
        rw [← hflat, List.mem_flatten]
        exact ⟨c, hc, hp⟩
      exact pipeline_disk_aux (effMaxFiles maxFiles kvSize mm) hF _ _
        (List.map_congr_left (fun c _ => dump_hmOf c)) hne hgoodcs (x :: rest) hflat

theorem gather_constKey_self (k : Int) (vs : List String) :
    gather (vs.map (fun v => (k, v))) k = vs := by
  induction vs with
  | nil => rfl
  | cons v vs ih =>
    rw [gather] at ih ⊢
    rw [List.map_cons, List.filterMap_cons]
    simp [ih]

theorem gather_constKey_other (k j : Int) (hj : j ≠ k) (vs : List String) :
    gather (vs.map (fun v => (k, v))) j = [] := by
  induction vs with
  | nil => rfl
  | cons v vs ih =>
    rw [gather] at ih ⊢
    rw [List.map_cons, List.filterMap_cons]
    simp [Ne.symm hj, ih]

theorem map_fst_constKey (k : Int) (vs : List String) :
    (vs.map (fun v => (k, v))).map Prod.fst = vs.map (fun _ => k) := by
  rw [List.map_map]
  rfl

/-- A grouped sequence with strictly ascending keys and nonempty value lists
is a fixed point of regrouping its flattened pairs. -/
theorem refGroupBy_flattenGroups : ∀ (l : List (Int × List String)),
    l.Pairwise (fun a b => a.1 < b.1) → (∀ g ∈ l, g.2 ≠ []) →
    refGroupBy (flattenGroups l) = l := by
  intro l
  induction l with
  | nil =>
    intro _ _
    rfl
  | cons g rest ih =>
    intro hs hv
    obtain ⟨k, vs⟩ := g
    have hrest : ∀ j ∈ (flattenGroups rest).map Prod.fst, k < j := by
      intro j hj
      rw [List.mem_map] at hj
      obtain ⟨p, hp, rfl⟩ := hj
      have := mem_fst_flattenGroups hp
      rw [List.mem_map] at this
      obtain ⟨g', hg', hfst⟩ := this
      rw [← hfst]
      exact (List.pairwise_cons.1 hs).1 g' hg'
    have hA : flattenGroups ((k, vs) :: rest)
        = vs.map (fun v => (k, v)) ++ flattenGroups rest := by
      rw [flattenGroups, List.map_cons, List.flatten_cons]
      rfl
    have hkeys : keysOf (flattenGroups ((k, vs) :: rest))
        = k :: keysOf (flattenGroups rest) := by
      apply sorted_mem_ext _ _ (sorted_keysOf _)
      · rw [List.pairwise_cons]
        exact ⟨fun j hj => hrest j ((mem_keysOf _ _).1 hj), sorted_keysOf _⟩
      · intro j
        rw [mem_keysOf, List.mem_cons, mem_keysOf, hA, List.map_append,
          List.mem_append, map_fst_constKey]
        constructor
        · rintro (h | h)
          · rw [List.mem_map] at h
            obtain ⟨v, hvm, rfl⟩ := h
            exact Or.inl rfl
          · exact Or.inr h
        · rintro (rfl | h)
          · left
            rw [List.mem_map]
            have : vs ≠ [] := hv (j, vs) (by simp)
            cases vs with
            | nil => exact absurd rfl this
            | cons v vrest => exact ⟨v, by simp⟩
          · exact Or.inr h
    rw [refGroupBy, hkeys, List.map_cons]
    have hght : gather (flattenGroups ((k, vs) :: rest)) k = vs := by
      rw [hA, gather_append, gather_constKey_self,
        gather_flattenGroups_zero (fun g' hg' => ?_), List.append_nil]
      have := (List.pairwise_cons.1 hs).1 g' hg'
      omega
    rw [hght]
    have hmapeq : (keysOf (flattenGroups rest)).map
          (fun j => (j, gather (flattenGroups ((k, vs) :: rest)) j))
        = (keysOf (flattenGroups rest)).map
          (fun j => (j, gather (flattenGroups rest) j)) := by
      refine List.map_congr_left (fun j hj => ?_)
      have hjk : j ≠ k := by
        have := hrest j ((mem_keysOf _ _).1 hj)
        omega
      rw [hA, gather_append, gather_constKey_other k j hjk, List.nil_append]
    rw [hmapeq]
    have hih := ih (List.pairwise_cons.1 hs).2 (fun g' hg' => hv g' (by simp [hg']))
    rw [refGroupBy] at hih
    rw [hih]

theorem hmSize_hmInsert (m : Hashmap) (k : Int) (v : String) :
    hmSize (hmInsert m k v) = hmSize m + 1 := by
  induction m with
  | nil => rfl
  | cons e rest ih =>
    obtain ⟨k', vs⟩ := e
    rw [hmInsert]
    by_cases hk : k' = k
    · rw [if_pos hk]
      simp [hmSize]
      omega
    · rw [if_neg hk]
      simp only [hmSize, List.map_cons, List.sum_cons]
      rw [show (List.map (fun kv => kv.2.length) (hmInsert rest k v)).sum
          = hmSize (hmInsert rest k v) from rfl, ih]
      simp [hmSize]
      omega

theorem hmSize_hmOf (c : List (Int × String)) : hmSize (hmOf c) = c.length := by
  induction c using List.reverseRecOn with
  | nil => rfl
  | append_singleton l p ih =>
    obtain ⟨k, v⟩ := p
    rw [hmOf_append_single, hmSize_hmInsert, ih]
    simp

theorem chunkSpec_partial_le (e : Nat) (he : 1 ≤ e) :
    ∀ (input cur : List (Int × String)), cur.length ≤ e →
    (chunkSpec e cur input).2.length ≤ e := by
  intro input
  induction input with
  | nil =>
    intro cur hc
    simpa [chunkSpec] using hc
  | cons x rest ih =>
    intro cur hc
    rw [chunkSpec]
    by_cases hsp : e ≤ cur.length
    · rw [if_pos hsp]
      exact ih [x] (by simpa using he)
    · rw [if_neg hsp]
      exact ih (cur ++ [x]) (by simp; omega)

theorem mergePass_length (m : Nat) (hm : 1 ≤ m) (files files' : List RunFile)
    (h : mergePass m files = some files') :
    files'.length = (files.length + m - 1) / m := by
  unfold mergePass at h
  rw [mapM_length mergeGroup _ _ h, chunksOf_length m hm]

theorem mergeDumpFilesF_fuel (m : Nat) (hm : 2 ≤ m) :
    ∀ (fuel₁ fuel₂ : Nat) (files : List RunFile) (s : Nat),
    files.length < fuel₁ → files.length < fuel₂ →
    mergeDumpFilesF m fuel₁ files s = mergeDumpFilesF m fuel₂ files s := by
  intro fuel₁
  induction fuel₁ with
  | zero =>
    intro fuel₂ files s h
    omega
  | succ f₁ ih =>
    intro fuel₂ files s h₁ h₂
    cases fuel₂ with
    | zero => omega
    | succ f₂ =>
      rw [mergeDumpFilesF, mergeDumpFilesF]
      by_cases hle : files.length ≤ m
      · rw [if_pos hle, if_pos hle]
      · rw [if_neg hle, if_neg hle, if_neg (by omega), if_neg (by omega)]
        cases hp : mergePass m files with
        | none => rfl
        | some files' =>
          have hlen := mergePass_length m (by omega) files files' hp
          have hlt : files'.length < files.length := by
            rw [hlen]
            have h2 : files.length * 2 ≤ files.length * m :=
              Nat.mul_le_mul_left files.length hm
            rw [Nat.div_lt_iff_lt_mul (by omega : 0 < m)]
            omega
          exact ih f₂ files' (s + 1) (by omega) (by omega)

theorem mergeDumpFilesF_exit (m : Nat) (hm : 2 ≤ m) :
    ∀ (fuel : Nat) (files : List RunFile) (s : Nat),
    files.length < fuel →
    (mergeDumpFilesF m fuel files s).err = none →
    (mergeDumpFilesF m fuel files s).files.length ≤ m := by
  intro fuel
  induction fuel with
  | zero =>
    intro files s h
    omega
  | succ f ih =>
    intro files s hlt herr
    rw [mergeDumpFilesF] at herr ⊢
    by_cases hle : files.length ≤ m
    · rw [if_pos hle]
      exact hle
    · rw [if_neg hle, if_neg (by omega)] at herr ⊢
      cases hp : mergePass m files with
      | none =>
        rw [hp] at herr
        simp at herr
      | some files' =>
        rw [hp] at herr
        have hlen := mergePass_length m (by omega) files files' hp
        have hlt' : files'.length < files.length := by
          rw [hlen]
          have h2 : files.length * 2 ≤ files.length * m :=
            Nat.mul_le_mul_left files.length hm
          rw [Nat.div_lt_iff_lt_mul (by omega : 0 < m)]
          omega
        exact ih files' (s + 1) (by omega) herr

/-! ### The disk result iterator, the merge-pass file naming, and the
module-level wrapper defaults -/

/-- State of a `KeyListIteratorFromDisk`: the wrapped merge heap plus whether
the workspace directory still exists on disk. -/
structure DiskIter where
  heap : List HeapElem
  wsExists : Bool
deriving DecidableEq

/-- `KeyListIteratorFromDisk.__init__`: construct the `MergeFileIterator`;
the workspace exists at construction time. -/
def KeyListIteratorFromDisk (files : List RunFile) : Option DiskIter :=
  (mergeInit files).map (fun h => ⟨h, true⟩)

/-- `KeyListIteratorFromDisk.__next__`: delegate to the merge iterator, then
`shutil.rmtree(self._request_id)` if `hasNext()` became false. -/
def diskNext (d : DiskIter) : Option ((Int × List String) × DiskIter) :=
  match mergeNext d.heap with
  | none => none
  | some (g, h') => some (g, ⟨h', if h'.isEmpty then false else d.wsExists⟩)

/-- Running the disk iterator for at most `n` calls to `next()`. -/
def diskStepsF : Nat → DiskIter → DiskIter
  | 0, d => d
  | n + 1, d =>
    match diskNext d with
    | none => d
    | some (_, d') => diskStepsF n d'

/-- Source file indices of merge-pass group `j`:
`range(index, min(self._num_files, index + self._max_num_files))` with
`index = j * max_num_files`. -/
def mergeGroupSources (n m j : Nat) : List Nat :=
  List.range' (j * m) (min n (j * m + m) - j * m)

/-- Destination slot of merge-pass group `j`: `current_merge_file`, which has
been incremented once per previous group. -/
def mergeGroupDest (j : Nat) : Nat := j

/-- Defaults of the module-level wrapper
`def groupBy(input_iterator, max_num_files=1000, max_hashmap_entries=10000000, …)`
as the pair `(max_num_files, max_hashmap_entries)`. -/
def groupBy_wrapper_defaults : Nat × Nat := (1000, 10000000)

/-- Defaults of `GroupByStatement.__init__(self, max_num_files=100,
max_hashmap_entries=1000000, …)` as the pair
`(max_num_files, max_hashmap_entries)`. -/
def GroupByStatement_init_defaults : Nat × Nat := (100, 1000000)

/-- The module-level `groupBy` called without configuration: it forwards its
own defaults (and `max_memory=-1`) to `GroupByStatement`. -/
def groupBy_wrapper (kvSize : Nat) (input : List (Int × String)) :
    Except PyError (List (Int × List String)) :=
  groupByPipeline groupBy_wrapper_defaults.1 groupBy_wrapper_defaults.2 (-1) kvSize input

/-! ### The claims -/

/-- C1 (corrected).  The original claim — the flattened output multiset
equals the input multiset for every finite input — fails when a value's
string form contains whitespace, because a spilled values line is re-split
on whitespace by the merge reader (see `C1_counterexample`).  Amended: for
whitespace-free non-empty value strings, under a sane effective
configuration, the pipeline succeeds and the flattened output is a
permutation of the input on every path (memory, spill, cascading merges). -/
theorem C1_flattened_multiset (maxFiles maxE : Nat) (mm : Int) (kvSize : Nat)
    (input : List (Int × String))
    (h1 : 1 ≤ maxE) (hE : 1 ≤ effMaxEntries maxE kvSize mm)
    (hF : 2 ≤ effMaxFiles maxFiles kvSize mm) (hgood : goodPairs input) :
    ∃ out, groupByPipeline maxFiles maxE mm kvSize input = .ok out
      ∧ (flattenGroups out).Perm input :=
  ⟨refGroupBy input,
    groupByPipeline_correct maxFiles maxE mm kvSize input h1 hE hF hgood,
    flattenGroups_refGroupBy_perm input⟩

/-- C1, counterexample to the claim as stated: the value "a b" is stored on
one values line during a spill and read back as the two values "a", "b", so
the flattened output is not a permutation of the input. -/
theorem C1_counterexample :
    groupByPipeline 4 1 (-1) 1 [(0, "a b"), (1, "c")]
      = .ok [(0, ["a", "b"]), (1, ["c"])]
    ∧ ¬ (flattenGroups [(0, ["a", "b"]), (1, ["c"])]).Perm [(0, "a b"), (1, "c")] := by
  constructor
  · rfl
  · decide

/-- C1, witness: a spill-path run (threshold 1) on a concrete good input. -/
theorem C1_witness :
    (1 ≤ 1 ∧ 1 ≤ effMaxEntries 1 1 (-1) ∧ 2 ≤ effMaxFiles 4 1 (-1)
      ∧ goodPairs [(0, "a"), (1, "b"), (0, "c")])
    ∧ ∃ out, groupByPipeline 4 1 (-1) 1 [(0, "a"), (1, "b"), (0, "c")] = .ok out
        ∧ (flattenGroups out).Perm [(0, "a"), (1, "b"), (0, "c")] :=
  ⟨⟨le_refl 1, by decide, by decide, by unfold goodPairs; decide⟩,
   C1_flattened_multiset 4 1 (-1) 1 [(0, "a"), (1, "b"), (0, "c")]
     (le_refl 1) (by decide) (by decide) (by unfold goodPairs; decide)⟩

/-- C2 (corrected).  Keys are strictly ascending on every path.  The second
half of the original claim — each group's values appear exactly as the input
presented them — fails for values whose string form contains whitespace
(see `C2_counterexample`).  Amended: for whitespace-free non-empty value
strings, under a sane effective configuration, the emitted keys are strictly
ascending and each group's value list is exactly the input's values for that
key, in input order (`gather`). -/
theorem C2_order (maxFiles maxE : Nat) (mm : Int) (kvSize : Nat)
    (input : List (Int × String))
    (h1 : 1 ≤ maxE) (hE : 1 ≤ effMaxEntries maxE kvSize mm)
    (hF : 2 ≤ effMaxFiles maxFiles kvSize mm) (hgood : goodPairs input) :
    ∃ out, groupByPipeline maxFiles maxE mm kvSize input = .ok out
      ∧ (out.map Prod.fst).Pairwise (· < ·)
      ∧ ∀ g ∈ out, g.2 = gather input g.1 := by
  refine ⟨refGroupBy input,
    groupByPipeline_correct maxFiles maxE mm kvSize input h1 hE hF hgood, ?_, ?_⟩
  · rw [List.pairwise_map]
    exact sorted_refGroupBy input
  · intro g hg
    rw [refGroupBy, List.mem_map] at hg
    obtain ⟨k, _, rfl⟩ := hg
    rfl

/-- C2, counterexample to the claim as stated: on the spill path the value
"a b" comes back as the two values "a", "b" inside key 0's group, which is
not the input's relative value order ["a b", "c"]. -/
theorem C2_counterexample :
    groupByPipeline 4 1 (-1) 1 [(0, "a b"), (0, "c")] = .ok [(0, ["a", "b", "c"])]
    ∧ ["a", "b", "c"] ≠ gather [(0, "a b"), (0, "c")] 0 := by
  constructor
  · rfl
  · decide

/-- C2, witness: a concrete spill-path run with interleaved keys. -/
theorem C2_witness :
    (1 ≤ 1 ∧ 1 ≤ effMaxEntries 1 1 (-1) ∧ 2 ≤ effMaxFiles 4 1 (-1)
      ∧ goodPairs [(1, "x"), (0, "y"), (1, "z")])
    ∧ ∃ out, groupByPipeline 4 1 (-1) 1 [(1, "x"), (0, "y"), (1, "z")] = .ok out
        ∧ (out.map Prod.fst).Pairwise (· < ·)
        ∧ ∀ g ∈ out, g.2 = gather [(1, "x"), (0, "y"), (1, "z")] g.1 :=
  ⟨⟨le_refl 1, by decide, by decide, by unfold goodPairs; decide⟩,
   C2_order 4 1 (-1) 1 [(1, "x"), (0, "y"), (1, "z")]
     (le_refl 1) (by decide) (by decide) (by unfold goodPairs; decide)⟩

/-- C3 (confirmed).  For `max_num_files = m ≥ 2`: every successful merge
pass turns `n` runs into `⌈n / m⌉` runs, which at least halves the count
(`2⌈n/m⌉ ≤ n + 1`) whenever the loop body runs (`n > m`); the loop
terminates (its result is independent of any sufficient fuel); and whenever
the loop finishes without raising, the surviving run count is at most `m` —
the state in which the `DiskResultIterator` is constructed. -/
theorem C3_merge_termination (m : Nat) (hm : 2 ≤ m) (files : List RunFile) (s : Nat) :
    (∀ files', mergePass m files = some files' →
        files'.length = (files.length + m - 1) / m
        ∧ (m < files.length → 2 * files'.length ≤ files.length + 1))
    ∧ (∀ fuel, files.length < fuel →
        mergeDumpFilesF m fuel files s = merge_dump_files m files s)
    ∧ ((merge_dump_files m files s).err = none →
        (merge_dump_files m files s).files.length ≤ m) := by
  refine ⟨?_, ?_, ?_⟩
  · intro files' hp
    have hlen := mergePass_length m (by omega) files files' hp
    refine ⟨hlen, fun hgt => ?_⟩
    rw [hlen]
    have hq : files.length ≤ 2 * ((files.length + 1) / 2) := by omega
    have hmono : (files.length + m - 1) / m ≤ (files.length + 1) / 2 := by
      rw [Nat.div_le_iff_le_mul_add_pred (by omega : 0 < m)]
      have h2 : 2 * ((files.length + 1) / 2) ≤ m * ((files.length + 1) / 2) :=
        Nat.mul_le_mul_right _ hm
      omega
    omega
  · exact fun fuel hf =>
      mergeDumpFilesF_fuel m hm fuel (files.length + 1) files s hf (by omega)
  · exact mergeDumpFilesF_exit m hm (files.length + 1) files s (by omega)

/-- C3, witness: three runs merged with fan-in 2 exit with at most 2 runs
and no error. -/
theorem C3_witness :
    (merge_dump_files 2 [[(0, "a")], [(1, "b")], [(2, "c")]] 0).err = none
    ∧ (merge_dump_files 2 [[(0, "a")], [(1, "b")], [(2, "c")]] 0).files.length ≤ 2
    ∧ mergeDumpFilesF 2 10 [[(0, "a")], [(1, "b")], [(2, "c")]] 0
        = merge_dump_files 2 [[(0, "a")], [(1, "b")], [(2, "c")]] 0 :=
  ⟨rfl,
   (C3_merge_termination 2 (by decide) [[(0, "a")], [(1, "b")], [(2, "c")]] 0).2.2 rfl,
   (C3_merge_termination 2 (by decide) [[(0, "a")], [(1, "b")], [(2, "c")]] 0).2.1
     10 (by decide)⟩

/-- C4 (corrected).  The original claim quantifies over every configuration,
but with `max_hashmap_entries = 0` (and no auto-tune) the very first
insertion already exceeds the threshold (see `C4_counterexample`): the spill
check runs before the insertion, so one entry always enters the hashmap.
Amended: whenever the configured threshold and the post-auto-tune threshold
are both at least 1, after any processed prefix the number of values held in
the hashmap is at most the current `max_hashmap_entries`. -/
theorem C4_memory_bound (kvSize : Nat) (mm : Int) (maxFiles maxE : Nat)
    (h1 : 1 ≤ maxE) (hE : 1 ≤ effMaxEntries maxE kvSize mm)
    (pre : List (Int × String)) :
    hmSize (chunkLoop kvSize mm pre (chunkInit maxFiles maxE)).hashmap
      ≤ (chunkLoop kvSize mm pre (chunkInit maxFiles maxE)).maxEntries := by
  cases pre with
  | nil =>
    show hmSize (chunkInit maxFiles maxE).hashmap ≤ _
    simp [chunkInit, hmSize]
  | cons x rest =>
    rw [chunkLoop_init kvSize mm maxFiles maxE h1 x rest]
    show hmSize (hmOf (chunkSpec (effMaxEntries maxE kvSize mm) [x] rest).2)
      ≤ effMaxEntries maxE kvSize mm
    rw [hmSize_hmOf]
    exact chunkSpec_partial_le _ hE rest [x] (by simpa using hE)

/-- C4, counterexample to the claim as stated: with
`max_hashmap_entries = 0` the hashmap holds one value right after the first
pair, exceeding the threshold. -/
theorem C4_counterexample :
    (chunkLoop 1 (-1) [(0, "a")] (chunkInit 4 0)).maxEntries
      < hmSize (chunkLoop 1 (-1) [(0, "a")] (chunkInit 4 0)).hashmap := by
  decide

/-- C4, witness: threshold 2 on a three-pair prefix. -/
theorem C4_witness :
    1 ≤ 2 ∧ 1 ≤ effMaxEntries 2 1 (-1)
    ∧ hmSize (chunkLoop 1 (-1) [(0, "a"), (1, "b"), (0, "c")] (chunkInit 4 2)).hashmap
        ≤ (chunkLoop 1 (-1) [(0, "a"), (1, "b"), (0, "c")] (chunkInit 4 2)).maxEntries :=
  ⟨by decide, by decide,
   C4_memory_bound 1 (-1) 4 2 (by decide) (by decide) [(0, "a"), (1, "b"), (0, "c")]⟩

/-- C5 (confirmed).  On the spill path (a constructed merge heap that is
nonempty): the workspace exists at `KeyListIteratorFromDisk` construction;
after any number of `next()` calls the workspace exists exactly while values
remain, so the call that empties the heap is the one that deletes it; a
deletion happens only on the emptying transition; and once the heap is empty
no further `next()` succeeds, so no second deletion can occur and no dump
files survive exhaustion. -/
theorem C5_workspace_cleanup (files : List RunFile) (h : List HeapElem)
    (hinit : mergeInit files = some h) (hne : h ≠ []) :
    KeyListIteratorFromDisk files = some ⟨h, true⟩
    ∧ (∀ n, (diskStepsF n ⟨h, true⟩).wsExists = true
        ↔ (diskStepsF n ⟨h, true⟩).heap ≠ [])
    ∧ (∀ (d d' : DiskIter) (g : Int × List String), d.wsExists = true →
        diskNext d = some (g, d') → (d'.wsExists = false ↔ d'.heap = []))
    ∧ (∀ d : DiskIter, d.heap = [] → diskNext d = none) := by
  refine ⟨?_, ?_, ?_, ?_⟩
  · rw [KeyListIteratorFromDisk, hinit]
    rfl
  · have aux : ∀ (n : Nat) (d : DiskIter), (d.wsExists = true ↔ d.heap ≠ []) →
        ((diskStepsF n d).wsExists = true ↔ (diskStepsF n d).heap ≠ []) := by
      intro n
      induction n with
      | zero => exact fun d hd => hd
      | succ n ih =>
        intro d hd
        rw [diskStepsF]
        cases hm : mergeNext d.heap with
        | none =>
          rw [show diskNext d = none from by rw [diskNext, hm]]
          exact hd
        | some r =>
          obtain ⟨g, h'⟩ := r
          rw [show diskNext d
              = some (g, ⟨h', if h'.isEmpty then false else d.wsExists⟩) from by
            rw [diskNext, hm]]
          apply ih
          have hdne : d.heap ≠ [] := by
            intro hemp
            rw [hemp] at hm
            simp [mergeNext] at hm
          have hws := hd.2 hdne
          cases h' with
          | nil => simp
          | cons e t => simp [hws]
    exact fun n => aux n ⟨h, true⟩ (by simpa using hne)
  · intro d d' g hws hstep
    rw [diskNext] at hstep
    cases hm : mergeNext d.heap with
    | none =>
      rw [hm] at hstep
      exact absurd hstep (by simp)
    | some r =>
      obtain ⟨g', h'⟩ := r
      rw [hm] at hstep
      simp only [Option.some.injEq, Prod.mk.injEq] at hstep
      obtain ⟨hg, hd'⟩ := hstep
      rw [← hd']
      cases h' with
      | nil => simp
      | cons e t => simp [hws]
  · intro d hd
    rw [diskNext, hd]
    rfl

/-- C5, witness: a single one-entry run; after one `next()` the heap is
empty and the workspace flag is false. -/
theorem C5_witness :
    mergeInit [[(0, "a")]] = some [⟨0, 0, "a", []⟩]
    ∧ KeyListIteratorFromDisk [[(0, "a")]] = some ⟨[⟨0, 0, "a", []⟩], true⟩
    ∧ ((diskStepsF 1 ⟨[⟨0, 0, "a", []⟩], true⟩).wsExists = true
        ↔ (diskStepsF 1 ⟨[⟨0, 0, "a", []⟩], true⟩).heap ≠ []) :=
  ⟨rfl,
   (C5_workspace_cleanup [[(0, "a")]] [⟨0, 0, "a", []⟩] rfl (by decide)).1,
   (C5_workspace_cleanup [[(0, "a")]] [⟨0, 0, "a", []⟩] rfl (by decide)).2.1 1⟩

/-- C6 (corrected).  When the run count exceeds `max_num_files` and
`max_num_files < 2`, the engine removes the workspace and stops with no
further merge work — but it executes `raise error_msg` on a plain string,
so the failure is a raised string (in Python 3 this itself becomes a
`TypeError: exceptions must derive from BaseException`), not the typed
`MergeNotPossible` error the claim names (see `C6_counterexample`). -/
theorem C6_merge_not_possible (m : Nat) (files : List RunFile) (s : Nat)
    (hgt : m < files.length) (hm : m < 2) :
    merge_dump_files m files s
      = ⟨some (PyError.raisedStr mergeErrorMsg), files, s, true⟩ := by
  unfold merge_dump_files
  rw [mergeDumpFilesF]
  rw [if_neg (by omega), if_pos hm]

/-- C6, counterexample to the claim as stated: the produced error is the
raised message string, not `MergeNotPossible`. -/
theorem C6_counterexample :
    (merge_dump_files 1 [[(0, "a")], [(1, "b")]] 0).err
      = some (PyError.raisedStr mergeErrorMsg)
    ∧ (merge_dump_files 1 [[(0, "a")], [(1, "b")]] 0).err
      ≠ some PyError.mergeNotPossible := by
  constructor
  · rfl
  · decide

/-- C6, witness: two runs with fan-in 1. -/
theorem C6_witness :
    1 < ([[(0, "a")], [(1, "b")]] : List RunFile).length ∧ 1 < 2
    ∧ merge_dump_files 1 [[(0, "a")], [(1, "b")]] 0
      = ⟨some (PyError.raisedStr mergeErrorMsg), [[(0, "a")], [(1, "b")]], 0, true⟩ :=
  ⟨by decide, by decide,
   C6_merge_not_possible 1 [[(0, "a")], [(1, "b")]] 0 (by decide) (by decide)⟩

theorem flattenGroups_ne_nil {l : List (Int × List String)} (hne : l ≠ [])
    (hv : ∀ g ∈ l, g.2 ≠ []) : flattenGroups l ≠ [] := by
  cases l with
  | nil => exact absurd rfl hne
  | cons g rest =>
    rw [flattenGroups, List.map_cons, List.flatten_cons]
    intro hnil
    rw [List.append_eq_nil, List.map_eq_nil_iff] at hnil
    exact hv g (by simp) hnil.1

theorem goodPairs_flattenGroups {l : List (Int × List String)}
    (hv : ∀ g ∈ l, ∀ v ∈ g.2, goodTok v = true) : goodPairs (flattenGroups l) := by
  intro p hp
  rw [flattenGroups, List.mem_flatten] at hp
  obtain ⟨inner, hin, hpin⟩ := hp
  rw [List.mem_map] at hin
  obtain ⟨g, hg, rfl⟩ := hin
  rw [List.mem_map] at hpin
  obtain ⟨v, hvm, rfl⟩ := hpin
  exact hv g hg v hvm

/-- C7 (corrected).  The original round-trip claim fails in two corners: a
value equal to the empty string (whitespace-free but empty) vanishes on
re-reading, and the empty sequence writes an empty file whose first read in
the `MergeFileIterator` constructor raises (see `C7_counterexample`).
Amended: for a nonempty sequence with strictly ascending keys, nonempty
value lists and nonempty whitespace-free value strings, writing with the run
writer and reading back through the K-way merge reader returns the original
sequence exactly. -/
theorem C7_roundtrip (l : List (Int × List String)) (hne : l ≠ [])
    (hsorted : l.Pairwise (fun a b => a.1 < b.1))
    (hvals : ∀ g ∈ l, g.2 ≠ [] ∧ ∀ v ∈ g.2, goodTok v = true) :
    MergeFileIterator [write_key_values_to_file l] = some l := by
  have hrg := refGroupBy_flattenGroups l hsorted (fun g hg => (hvals g hg).1)
  have hmm := merge_written_refGroupBys [flattenGroups l]
    (by
      intro c hc
      rw [List.mem_singleton] at hc
      subst hc
      exact flattenGroups_ne_nil hne (fun g hg => (hvals g hg).1))
    (by
      intro c hc
      rw [List.mem_singleton] at hc
      subst hc
      exact goodPairs_flattenGroups (fun g hg => (hvals g hg).2))
  rw [List.map_singleton, hrg] at hmm
  rw [hmm]
  rw [show ([flattenGroups l] : List (List (Int × String))).flatten
      = flattenGroups l from by simp]
  rw [hrg]

/-- C7, counterexample to the claim as stated: the empty-string value
disappears on re-reading, and the empty sequence's file cannot be opened by
the merge reader at all. -/
theorem C7_counterexample :
    MergeFileIterator [write_key_values_to_file [(0, [""])]] = some [(0, [])]
    ∧ ([(0, [])] : List (Int × List String)) ≠ [(0, [""])]
    ∧ MergeFileIterator [write_key_values_to_file ([] : List (Int × List String))]
      = none := by
  refine ⟨rfl, by decide, rfl⟩

/-- C7, witness: a two-entry run with multi-value lines round-trips. -/
theorem C7_witness :
    ([(0, ["a", "b"]), (2, ["c"])] : List (Int × List String)) ≠ []
    ∧ MergeFileIterator [write_key_values_to_file [(0, ["a", "b"]), (2, ["c"])]]
      = some [(0, ["a", "b"]), (2, ["c"])] :=
  ⟨by decide,
   C7_roundtrip [(0, ["a", "b"]), (2, ["c"])] (by decide) (by decide) (by decide)⟩

/-- C8 (corrected).  The claim's numbers 100 and 1,000,000 are the
`GroupByStatement.__init__` defaults; the module-level entry function
`groupBy` overrides them with its own defaults 1000 and 10,000,000 (see
`C8_counterexample`), so a caller supplying no options runs with the wrapper
defaults, equivalently with the pipeline configured at 1000 / 10,000,000. -/
theorem C8_wrapper_defaults :
    groupBy_wrapper_defaults = (1000, 10000000)
    ∧ GroupByStatement_init_defaults = (100, 1000000)
    ∧ groupBy_wrapper_defaults ≠ GroupByStatement_init_defaults
    ∧ ∀ (kvSize : Nat) (input : List (Int × String)),
        groupBy_wrapper kvSize input = groupByPipeline 1000 10000000 (-1) kvSize input :=
  ⟨rfl, rfl, by decide, fun _ _ => rfl⟩

/-- C8, counterexample to the claim as stated: the entry function's defaults
are not 100 / 1,000,000. -/
theorem C8_counterexample : groupBy_wrapper_defaults ≠ (100, 1000000) := by
  decide

/-- C9 (confirmed).  With fan-in `m ≥ 2`, output group `j` of a merge pass
is written to slot `j`, which is at most its own first source index `j·m`
(strictly below it for `j ≥ 1`), and is strictly below every source index
of every later group `j' > j`; hence a pass only ever overwrites dump slots
whose runs were already consumed (group `j`'s own sources are removed before
the rename into slot `j`). -/
theorem C9_slot_safety (n m j j' : Nat) (hm : 2 ≤ m) :
    mergeGroupDest j ≤ j * m
    ∧ (1 ≤ j → mergeGroupDest j < j * m)
    ∧ (mergeGroupDest j < j' → ∀ i ∈ mergeGroupSources n m j', mergeGroupDest j < i) := by
  have h2 : j * 2 ≤ j * m := Nat.mul_le_mul_left j hm
  refine ⟨?_, ?_, ?_⟩
  · show j ≤ j * m
    omega
  · intro hj
    show j < j * m
    omega
  · intro hjj i hi
    have hjj' : j < j' := hjj
    show j < i
    rw [mergeGroupSources] at hi
    have hmem := List.mem_range'_1.1 hi
    have h3 : (j + 1) * 2 ≤ j' * m := Nat.mul_le_mul (by omega) hm
    omega

/-- C9, witness: pass over 7 runs with fan-in 2, slot 1 against group 3. -/
theorem C9_witness :
    mergeGroupDest 1 < 1 * 2
    ∧ ∀ i ∈ mergeGroupSources 7 2 3, mergeGroupDest 1 < i :=
  ⟨(C9_slot_safety 7 2 1 3 (by decide)).2.1 (by decide),
   (C9_slot_safety 7 2 1 3 (by decide)).2.2 (by decide)⟩

theorem mergeInitAux_none : ∀ (fs : List RunFile) (i : Nat) (acc : List HeapElem),
    [] ∈ fs → mergeInitAux i fs acc = none := by
  intro fs
  induction fs with
  | nil =>
    intro i acc hmem
    exact absurd hmem (by simp)
  | cons f rest ih =>
    intro i acc hmem
    rcases List.mem_cons.1 hmem with hf | hf
    · rw [← hf]
      rfl
    · cases f with
      | nil => rfl
      | cons e r =>
        obtain ⟨k, line⟩ := e
        show mergeInitAux (i + 1) rest (heapPush ⟨k, i, line, r⟩ acc) = none
        exact ih (i + 1) _ hf

/-- C10 (confirmed).  With a positive configured threshold and a positive
post-auto-tune threshold, every dump file the accumulator leaves behind
(loop spills and the guarded final spill alike) holds at least one entry;
and the merge constructor, which reads one key line from each input file,
fails (`int(next(f))` raises out of `__init__`) as soon as any input file is
empty. -/
theorem C10_no_empty_dumps (kvSize : Nat) (mm : Int) (maxFiles maxE : Nat)
    (h1 : 1 ≤ maxE) (hE : 1 ≤ effMaxEntries maxE kvSize mm)
    (input : List (Int × String)) :
    (∀ f ∈ (chunk_input_into_dump_files kvSize mm maxFiles maxE input).2.files, f ≠ [])
    ∧ (∀ fs : List RunFile, [] ∈ fs → mergeInit fs = none) := by
  constructor
  · cases input with
    | nil =>
      intro f hf
      simp [chunk_input_into_dump_files, chunkLoop, chunkInit] at hf
    | cons x rest =>
      by_cases hempty : (chunkSpec (effMaxEntries maxE kvSize mm) [x] rest).1 = []
      · rw [chunk_input_fast kvSize mm maxFiles maxE h1 x rest hempty]
        intro f hf
        simp at hf
      · rw [chunk_input_disk kvSize mm maxFiles maxE h1 x rest hempty]
        intro f hf
        rw [List.mem_map] at hf
        obtain ⟨c, hc, rfl⟩ := hf
        have hcne : c ≠ [] := by
          rcases List.mem_append.1 hc with hm | hm
          · exact chunkSpec_chunks_ne_nil _ hE rest [x] c hm
          · rw [List.mem_singleton] at hm
            subst hm
            exact chunkSpec_partial_ne_nil _ rest [x] (by simp)
        rw [dump_hmOf]
        unfold write_key_values_to_file
        intro hnil
        rw [List.map_eq_nil_iff] at hnil
        rw [refGroupBy] at hnil
        exact keysOf_ne_nil hcne (List.map_eq_nil_iff.1 hnil)
  · intro fs hmem
    exact mergeInitAux_none fs 0 [] hmem

/-- C10, witness: a spill-path run leaves only nonempty dumps, and the
merge constructor rejects a file list containing an empty file. -/
theorem C10_witness :
    1 ≤ 1 ∧ 1 ≤ effMaxEntries 1 1 (-1)
    ∧ (∀ f ∈ (chunk_input_into_dump_files 1 (-1) 4 1 [(0, "a"), (1, "b")]).2.files,
        f ≠ [])
    ∧ mergeInit [[], [(0, "a")]] = none :=
  ⟨by decide, by decide,
   (C10_no_empty_dumps 1 (-1) 4 1 (by decide) (by decide) [(0, "a"), (1, "b")]).1,
   (C10_no_empty_dumps 1 (-1) 4 1 (by decide) (by decide) [(0, "a"), (1, "b")]).2
     [[], [(0, "a")]] (by decide)⟩
